import Mathlib

/-!
Verification of the HTML-to-Markdown conversion engine of this repository
(`convert_framer_to_mdx.py` and the table converter of
`convert_onboarding_docs.py`).

The Python code is a pipeline of `re.sub` passes over a string.  We embed
strings as `List Char` and each regular-expression pass as a scanner
`matchAt : List Char → Option (matched, replacement, rest)` that recognises
a match starting at the head of the list, exactly following the
backtracking semantics of the concrete pattern used in the source, together
with a generic leftmost, non-overlapping substitution driver `subM`.
Recursive passes (the nested-list flattener) take an explicit fuel
argument; fuel-insensitivity beyond the input length is proved, which is
the termination statement for the source's recursion.
-/

namespace MDX

/-- If `lit` is the initial segment of `s`, return the remainder. -/
def afterLit : List Char → List Char → Option (List Char)
  | [], s => some s
  | _ :: _, [] => none
  | c :: cs, x :: xs => if x = c then afterLit cs xs else none

/-- `s` starts with `lit`. -/
def hasLead (lit s : List Char) : Bool :=
  (afterLit lit s).isSome

/-- `pat` occurs somewhere in `s` (Python's `pat in s`). -/
def containsL (pat : List Char) : List Char → Bool
  | [] => hasLead pat []
  | c :: cs => hasLead pat (c :: cs) || containsL pat cs

/-- Split `s` at the first occurrence of `cl`: lazy `(.*?)cl` with DOTALL.
Returns the part before `cl` and the part after it. -/
def splitUntil (cl : List Char) : List Char → Option (List Char × List Char)
  | [] =>
    match afterLit cl [] with
    | some r => some ([], r)
    | none => none
  | c :: cs =>
    match afterLit cl (c :: cs) with
    | some r => some ([], r)
    | none =>
      match splitUntil cl cs with
      | some (g, r) => some (c :: g, r)
      | none => none

/-- Split `s` at the first occurrence of `cl`, failing if a newline comes
first: lazy `(.*?)cl` without DOTALL (the closer is tried before the dot
consumes the next character, as in the regex engine). -/
def splitUntilNoNl (cl : List Char) : List Char → Option (List Char × List Char)
  | [] =>
    match afterLit cl [] with
    | some r => some ([], r)
    | none => none
  | c :: cs =>
    match afterLit cl (c :: cs) with
    | some r => some ([], r)
    | none =>
      if c = '\n' then none
      else
        match splitUntilNoNl cl cs with
        | some (g, r) => some (c :: g, r)
        | none => none

/-- Whitespace stripped by Python's `str.strip()`. -/
def pyWs (c : Char) : Bool :=
  c = ' ' || c = '\t' || c = '\n' || c = '\r' || c = '\x0b' || c = '\x0c'

/-- Python's `str.strip()`. -/
def pyStrip (s : List Char) : List Char :=
  ((s.dropWhile pyWs).reverse.dropWhile pyWs).reverse

/-- The character references decoded by this model of `html.unescape`
(each name includes its semicolon; the decoded character follows). -/
def entityTable : List (List Char × Char) :=
  [("amp;".data, '&'), ("lt;".data, '<'), ("gt;".data, '>'),
   ("quot;".data, '"'), ("nbsp;".data, '\u00A0'), ("#39;".data, '\'')]

/-- Try each table entry as the continuation of an ampersand. -/
def tryEntity : List (List Char × Char) → List Char → Option (Char × List Char)
  | [], _ => none
  | (nm, ch) :: es, r =>
    match afterLit nm r with
    | some rest => some (ch, rest)
    | none => tryEntity es r

/-- Model of Python's `html.unescape`, restricted to the named character
references of `entityTable`; other ampersand sequences are left
unchanged.  The stdlib function knows the full HTML5 table (including
semicolon-less legacy forms); on inputs whose ampersand sequences are
limited to the table, the two agree.  Fuel-driven; the input length
suffices. -/
def unescapeF : Nat → List Char → List Char
  | 0, s => s
  | _ + 1, [] => []
  | f + 1, c :: r =>
    if c = '&' then
      match tryEntity entityTable r with
      | some (ch, rest) => ch :: unescapeF f rest
      | none => c :: unescapeF f r
    else c :: unescapeF f r

/-- `html.unescape` (see `unescapeF`). -/
def unescape (s : List Char) : List Char :=
  unescapeF s.length s

/-- One `re.sub` pass: scan left to right; where `mA` recognises a match
starting at the current position, emit its replacement and continue after
the match (non-overlapping, like `re.sub`); otherwise move one character.
Fuel-driven; `subM` instantiates the fuel with the input length, which
suffices (`subFuel_fuelIrrel`). -/
def subFuel : Nat → (List Char → Option (List Char × List Char × List Char)) →
    List Char → List Char
  | 0, _, s => s
  | f + 1, mA, s =>
    match mA s with
    | some (_, r, rest) => r ++ subFuel f mA rest
    | none =>
      match s with
      | [] => []
      | c :: cs => c :: subFuel f mA cs

/-- One `re.sub` pass over `s` (see `subFuel`). -/
def subM (mA : List Char → Option (List Char × List Char × List Char))
    (s : List Char) : List Char :=
  subFuel s.length mA s

/-- A scanner is well-formed when every match it reports really is an
initial, nonempty segment of its input. -/
def MASpec (mA : List Char → Option (List Char × List Char × List Char)) : Prop :=
  ∀ t m r rest, mA t = some (m, r, rest) → t = m ++ rest ∧ m ≠ []

/-- A scanner's replacements are no longer than what they replace. -/
def ReplBound (mA : List Char → Option (List Char × List Char × List Char)) : Prop :=
  ∀ t m r rest, mA t = some (m, r, rest) → r.length ≤ m.length

/-- Scanner for a pattern `op(.*?)cl` (DOTALL when `noNl` is false), with
the replacement computed from the group. -/
def pairMA (op cl : List Char) (noNl : Bool) (repl : List Char → List Char)
    (t : List Char) : Option (List Char × List Char × List Char) :=
  match afterLit op t with
  | none => none
  | some r =>
    match (if noNl then splitUntilNoNl cl r else splitUntil cl r) with
    | none => none
    | some (g, rest) => some (op ++ g ++ cl, repl g, rest)

/-- `re.sub(r'<strong>(.*?)</strong>', r'**\1**', ...)` (no DOTALL). -/
def strongMA : List Char → Option (List Char × List Char × List Char) :=
  pairMA "<strong>".data "</strong>".data true
    (fun g => "**".data ++ g ++ "**".data)

/-- `re.sub(r'<em>(.*?)</em>', r'*\1*', ...)` (no DOTALL). -/
def emMA : List Char → Option (List Char × List Char × List Char) :=
  pairMA "<em>".data "</em>".data true (fun g => '*' :: g ++ ['*'])

/-- `re.sub(r'<code>(.*?)</code>', r'`\1`', ...)` (no DOTALL). -/
def codeMA : List Char → Option (List Char × List Char × List Char) :=
  pairMA "<code>".data "</code>".data true (fun g => "`".data ++ g ++ "`".data)

/-- `re.sub(r'<p>(.*?)</p>', r'\1\n\n', ..., flags=re.DOTALL)`: the main
paragraph pass. -/
def pMAmain : List Char → Option (List Char × List Char × List Char) :=
  pairMA "<p>".data "</p>".data false (fun g => g ++ "\n\n".data)

/-- `re.sub(r'<p>(.*?)</p>', r'\1', ..., flags=re.DOTALL)`: the paragraph
stripping inside list items and table cells. -/
def pMAli : List Char → Option (List Char × List Char × List Char) :=
  pairMA "<p>".data "</p>".data false (fun g => g)

/-- `re.sub(r'<h3>(.*?)</h3>', r'\n\n### \1\n\n', ..., flags=re.DOTALL)`. -/
def h3MA : List Char → Option (List Char × List Char × List Char) :=
  pairMA "<h3>".data "</h3>".data false
    (fun g => "\n\n### ".data ++ g ++ "\n\n".data)

/-- `re.sub(r'<h4>(.*?)</h4>', r'\n\n#### \1\n\n', ..., flags=re.DOTALL)`. -/
def h4MA : List Char → Option (List Char × List Char × List Char) :=
  pairMA "<h4>".data "</h4>".data false
    (fun g => "\n\n#### ".data ++ g ++ "\n\n".data)

/-- The characters matched by `\s` in the source's `<br\s*/?>` pattern
(ASCII part; exotic Unicode whitespace is not exercised here). -/
def reWs (c : Char) : Bool :=
  c = ' ' || c = '\t' || c = '\n' || c = '\r' || c = '\x0b' || c = '\x0c'

/-- `re.sub(r'<br\s*/?>', '\n', ...)`. -/
def brMA (t : List Char) : Option (List Char × List Char × List Char) :=
  match afterLit "<br".data t with
  | none => none
  | some r =>
    match r.dropWhile reWs with
    | '/' :: '>' :: rest =>
      some ("<br".data ++ r.takeWhile reWs ++ "/>".data, ['\n'], rest)
    | '>' :: rest =>
      some ("<br".data ++ r.takeWhile reWs ++ ['>'], ['\n'], rest)
    | _ => none

/-- `re.sub(r'<br>', '\n', ...)` (a second pass in the source; subsumed by
the previous one but reproduced faithfully). -/
def br2MA (t : List Char) : Option (List Char × List Char × List Char) :=
  match afterLit "<br>".data t with
  | none => none
  | some rest => some ("<br>".data, ['\n'], rest)

/-- `re.sub(r'\n{3,}', '\n\n', ...)`. -/
def nl3MA (t : List Char) : Option (List Char × List Char × List Char) :=
  if (t.takeWhile (· = '\n')).length < 3 then none
  else some (t.takeWhile (· = '\n'), "\n\n".data, t.dropWhile (· = '\n'))

/-- `re.sub(r'[ \t]+\n', '\n', ...)`. -/
def wsNlMA (t : List Char) : Option (List Char × List Char × List Char) :=
  match t.dropWhile (fun c => c = ' ' || c = '\t') with
  | '\n' :: rest =>
    if (t.takeWhile (fun c => c = ' ' || c = '\t')).isEmpty then none
    else some (t.takeWhile (fun c => c = ' ' || c = '\t') ++ ['\n'], ['\n'], rest)
  | _ => none

/-- Finish a tag whose leading literal has been consumed: `[^>]*>`. -/
def angleRest (lead r : List Char) : Option (List Char × List Char × List Char) :=
  match r.dropWhile (· ≠ '>') with
  | '>' :: rest => some (lead ++ r.takeWhile (· ≠ '>') ++ ['>'], [], rest)
  | _ => none

/-- `re.sub(r'</?WORD[^>]*>', '', ...)`: the optional slash is tried
greedily first, as in the regex engine. -/
def closeTagMA (word : List Char) (t : List Char) :
    Option (List Char × List Char × List Char) :=
  match afterLit ('<' :: '/' :: word) t with
  | some r => angleRest ('<' :: '/' :: word) r
  | none =>
    match afterLit ('<' :: word) t with
    | some r => angleRest ('<' :: word) r
    | none => none

/-- `re.sub(r'</?ul[^>]*>', '', ...)`. -/
def ulMA : List Char → Option (List Char × List Char × List Char) :=
  closeTagMA "ul".data

/-- `re.sub(r'</?ol[^>]*>', '', ...)`. -/
def olMA : List Char → Option (List Char × List Char × List Char) :=
  closeTagMA "ol".data

/-- After `href="` has matched: `([^"]+)"[^>]*>(.*?)</a>`.  Returns the
url, the attribute remainder, the link text and the rest of the input. -/
def aParseTail (v : List Char) :
    Option (List Char × List Char × List Char × List Char) :=
  match v.dropWhile (· ≠ '"') with
  | '"' :: w =>
    if (v.takeWhile (· ≠ '"')).isEmpty then none
    else
      match w.dropWhile (· ≠ '>') with
      | '>' :: x =>
        match splitUntilNoNl "</a>".data x with
        | some (txt, rest) => some (v.takeWhile (· ≠ '"'), w.takeWhile (· ≠ '>'), txt, rest)
        | none => none
      | _ => none
  | _ => none

/-- Backtracking of the greedy `[^>]+` in
`<a[^>]+href="([^"]+)"[^>]*>(.*?)</a>`: try the rightmost position of
`href="` inside the non-`>` run first, falling back leftwards. -/
def aTryAt (tr : List Char) : Nat → Option (List Char × List Char × List Char)
  | 0 => none
  | k + 1 =>
    match afterLit "href=\"".data (tr.drop (k + 1)) with
    | some v =>
      match aParseTail v with
      | some (url, mid2, txt, rest) =>
        some ("<a".data ++ tr.take (k + 1) ++ "href=\"".data ++ url ++
                '"' :: mid2 ++ '>' :: txt ++ "</a>".data,
              '[' :: txt ++ "](".data ++ url ++ [')'],
              rest)
      | none => aTryAt tr k
    | none => aTryAt tr k

/-- `re.sub(r'<a[^>]+href="([^"]+)"[^>]*>(.*?)</a>', r'[\2](\1)', ...)`
(no DOTALL). -/
def aMA (t : List Char) : Option (List Char × List Char × List Char) :=
  match afterLit "<a".data t with
  | none => none
  | some tr => aTryAt tr (tr.takeWhile (· ≠ '>')).length

/-- The leaf branch of `replace_li`: strip `<p>` wrappers, convert inline
`<strong>`/`<em>`/`<code>`/`<a href>`, unescape entities, strip
whitespace (source lines 113-118 of `convert_framer_to_mdx.py`). -/
def leafLi (g : List Char) : List Char :=
  pyStrip (unescape (subM aMA (subM codeMA (subM emMA (subM strongMA (subM pMAli g))))))

/-- `re.sub(r'(<li[^>]*>)(.*?)(</li>)', replace_li, text, flags=re.DOTALL)`:
scanner for one list item.  `rec` is the recursive call made by
`replace_li` when the item content contains a nested `<ul>`/`<ol>`. -/
def liMA (rec : List Char → List Char) (t : List Char) :
    Option (List Char × List Char × List Char) :=
  match afterLit "<li".data t with
  | none => none
  | some r =>
    match r.dropWhile (· ≠ '>') with
    | '>' :: r2 =>
      match splitUntil "</li>".data r2 with
      | none => none
      | some (g, rest) =>
        some ("<li".data ++ r.takeWhile (· ≠ '>') ++ '>' :: g ++ "</li>".data,
              "- ".data ++
                (if containsL "<ul>".data g || containsL "<ol>".data g
                 then rec g else leafLi g) ++ ['\n'],
              rest)
    | _ => none

/-- Apply a pass `n` times (the `for d in range(10, 0, -1)` loop). -/
def applyN : Nat → (List Char → List Char) → List Char → List Char
  | 0, _, s => s
  | n + 1, g, s => applyN n g (g s)

/-- `process_lists` of `convert_framer_to_mdx.py` with explicit fuel for
the recursion on nested list content: ten passes of the `<li>` scanner,
then the `<ul>`/`<ol>` wrapper tags are stripped. -/
def process_listsF : Nat → List Char → List Char
  | 0, s => s
  | f + 1, s =>
    subM olMA (subM ulMA (applyN 10 (fun u => subM (liMA (process_listsF f)) u) s))

/-- `process_lists`: the fuel `length + 1` suffices, and by
`process_listsF_fuelIrrel` any larger fuel gives the same result. -/
def process_lists (s : List Char) : List Char :=
  process_listsF (s.length + 1) s

/-- Find the leftmost position where `mA` recognises a match; return the
skipped characters, the match value and the rest. -/
def scanFindF : Nat → (List Char → Option (List Char × List Char)) →
    List Char → Option (List Char × List Char × List Char)
  | 0, _, _ => none
  | f + 1, mA, s =>
    match mA s, s with
    | some (g, r), _ => some ([], g, r)
    | none, [] => none
    | none, c :: cs => (scanFindF f mA cs).map (fun x => (c :: x.1, x.2.1, x.2.2))

/-- Leftmost match of `mA` in `s` (`re.search`-like). -/
def scanFind (mA : List Char → Option (List Char × List Char))
    (s : List Char) : Option (List Char × List Char × List Char) :=
  scanFindF (s.length + 1) mA s

/-- `re.findall`: all non-overlapping matches, left to right, collecting
the value (matched text or capture group) reported by `mA`. -/
def findAllValF : Nat → (List Char → Option (List Char × List Char)) →
    List Char → List (List Char)
  | 0, _, _ => []
  | f + 1, mA, s =>
    match scanFind mA s with
    | none => []
    | some (_, v, rest) => v :: findAllValF f mA rest

/-- All matches of `mA` in `s` (see `findAllValF`). -/
def findAllVal (mA : List Char → Option (List Char × List Char))
    (s : List Char) : List (List Char) :=
  findAllValF (s.length + 1) mA s

/-- Scanner for `<img[^>]+>`: the attribute run must be nonempty, so the
bare five-character tag `<img>` does not match. -/
def imgMA (t : List Char) : Option (List Char × List Char) :=
  match afterLit "<img".data t with
  | none => none
  | some r =>
    match r.dropWhile (· ≠ '>') with
    | '>' :: rest =>
      if (r.takeWhile (· ≠ '>')).isEmpty then none
      else some ("<img".data ++ r.takeWhile (· ≠ '>') ++ ['>'], rest)
    | _ => none

/-- Leftmost `<img[^>]+>` match in `s`. -/
def imgFind (s : List Char) : Option (List Char × List Char × List Char) :=
  scanFind imgMA s

/-- `re.sub(r'<img[^>]+>', replace_img, ...)` with the stateful
`image_index` of the source: the n-th match is replaced by the n-th entry
of `tags` wrapped in blank lines; once `tags` is exhausted, matches are
left unchanged. -/
def subImgF : Nat → List Char → List (List Char) → List Char
  | 0, s, _ => s
  | f + 1, s, tags =>
    match imgFind s with
    | none => s
    | some (pre, m, rest) =>
      match tags with
      | [] => pre ++ m ++ subImgF f rest []
      | tg :: tgs => pre ++ ('\n' :: '\n' :: tg ++ "\n\n".data) ++ subImgF f rest tgs

/-- The image-substitution pass (see `subImgF`). -/
def subImgL (s : List Char) (tags : List (List Char)) : List Char :=
  subImgF (s.length + 1) s tags

/-- The number of `<img[^>]+>` matches in `s`. -/
def countImgF : Nat → List Char → Nat
  | 0, _ => 0
  | f + 1, s =>
    match imgFind s with
    | none => 0
    | some (_, _, rest) => countImgF f rest + 1

/-- The number of `<img[^>]+>` matches in `s`. -/
def countImg (s : List Char) : Nat :=
  countImgF (s.length + 1) s

/-- Scanner for `<[^>]+>`: any angle-bracketed run used by the residual
tag search `re.findall(r'<[^>]+>', ...)`. -/
def tagMA (t : List Char) : Option (List Char × List Char) :=
  match t with
  | '<' :: r =>
    match r.dropWhile (· ≠ '>') with
    | '>' :: rest =>
      if (r.takeWhile (· ≠ '>')).isEmpty then none
      else some ('<' :: r.takeWhile (· ≠ '>') ++ ['>'], rest)
    | _ => none
  | _ => none

/-- Keep the first occurrence of each element (the source iterates
`set(remaining_html)`, whose order Python leaves unspecified; the relevant
inputs here have no tag that is a substring of another, so the order does
not affect the result, and first-occurrence order is used). -/
def dedupF : Nat → List (List Char) → List (List Char)
  | 0, _ => []
  | _ + 1, [] => []
  | f + 1, x :: xs => x :: dedupF f (xs.filter (fun y => y ≠ x))

/-- Keep the first occurrence of each element (see `dedupF`; the fuel
`length` suffices since `filter` never lengthens a list). -/
def dedupL (l : List (List Char)) : List (List Char) :=
  dedupF l.length l

/-- The allow-list of the residual-tag pass of
`convert_framer_to_mdx.py`: tags beginning `<img` and these literal
forms are left in place. -/
def isAllowed (tag : List Char) : Bool :=
  hasLead "<img".data tag ||
    (["<p>", "</p>", "<br>", "<br/>", "<ul>", "</ul>", "<ol>", "</ol>",
      "<li>", "</li>"].map String.data).contains tag

/-- The visible marker wrapped around a preserved tag. -/
def markerOf (tag : List Char) : List Char :=
  "<!-- HTML preserved: ".data ++ tag ++ " -->".data

/-- Python's `str.replace(old, new)`: leftmost, non-overlapping, the
replacement is not rescanned. -/
def replaceAllF : Nat → List Char → List Char → List Char → List Char
  | 0, _, _, s => s
  | f + 1, old, new, s =>
    match afterLit old s with
    | some r => new ++ replaceAllF f old new r
    | none =>
      match s with
      | [] => []
      | c :: cs => c :: replaceAllF f old new cs

/-- Python's `str.replace(old, new)` (see `replaceAllF`). -/
def replaceAllL (old new s : List Char) : List Char :=
  replaceAllF s.length old new s

/-- The residual-tag preservation pass: every distinct `<[^>]+>` match
that is not on the allow-list is replaced, wherever it occurs, by a
visible marker comment naming the literal tag text. -/
def preserveTags (s : List Char) : List Char :=
  (dedupL (findAllVal tagMA s)).foldl
    (fun acc tg => if isAllowed tg then acc else replaceAllL tg (markerOf tg) acc) s

/-- The passes of `html_to_markdown` that follow image substitution
(source lines 98-163 of `convert_framer_to_mdx.py`, in source order). -/
def pipelineAfterImg (s : List Char) : List Char :=
  pyStrip (unescape (preserveTags
    (subM wsNlMA (subM nl3MA
      (subM br2MA (subM brMA
        (subM aMA (subM codeMA (subM emMA (subM strongMA
          (subM pMAmain
            (process_lists
              (subM h4MA (subM h3MA s))))))))))))))

/-- `html_to_markdown` of `convert_framer_to_mdx.py` on character
lists. -/
def html_to_markdownL (s : List Char) (tags : List (List Char)) : List Char :=
  pipelineAfterImg (subImgL s tags)

/-- `html_to_markdown(html_content, image_tags)` of
`convert_framer_to_mdx.py`. -/
def html_to_markdown (html_content : String) (image_tags : List String) : String :=
  ⟨html_to_markdownL html_content.data (image_tags.map String.data)⟩

/-- The converter contract name used by the specification. -/
def convert (htmlBody : String) (imageTags : List String) : String :=
  html_to_markdown htmlBody imageTags

/-- Backtracking of the greedy `[^>]+` in the image-extraction pattern
`<img[^>]+src="(https://framerusercontent\.com/images/[^"]+)"`. -/
def extTryAt (tr : List Char) : Nat → Option (List Char × List Char)
  | 0 => none
  | k + 1 =>
    match afterLit "src=\"https://framerusercontent.com/images/".data (tr.drop (k + 1)) with
    | some v =>
      match v.dropWhile (· ≠ '"') with
      | '"' :: rest =>
        if (v.takeWhile (· ≠ '"')).isEmpty then extTryAt tr k
        else some ("https://framerusercontent.com/images/".data ++ v.takeWhile (· ≠ '"'), rest)
      | _ => extTryAt tr k
    | none => extTryAt tr k

/-- Scanner for the image-extraction pattern; reports the capture group
(the URL). -/
def extMA (t : List Char) : Option (List Char × List Char) :=
  match afterLit "<img".data t with
  | none => none
  | some tr => extTryAt tr (tr.takeWhile (· ≠ '>')).length

/-- `extract_images` of `convert_framer_to_mdx.py`: all image URLs on the
`framerusercontent.com` host, in document order. -/
def extract_images (html_content : String) : List String :=
  (findAllVal extMA html_content.data).map fun l => ⟨l⟩

/-- UTF-8 encoding of one character (the byte sequence Python's
`urllib.parse.quote` percent-encodes). -/
def utf8Char (c : Char) : List Nat :=
  if c.toNat < 0x80 then [c.toNat]
  else if c.toNat < 0x800 then [0xC0 + c.toNat / 64, 0x80 + c.toNat % 64]
  else if c.toNat < 0x10000 then
    [0xE0 + c.toNat / 4096, 0x80 + c.toNat / 64 % 64, 0x80 + c.toNat % 64]
  else
    [0xF0 + c.toNat / 262144, 0x80 + c.toNat / 4096 % 64, 0x80 + c.toNat / 64 % 64,
     0x80 + c.toNat % 64]

/-- UTF-8 encoding of a character list. -/
def utf8L (s : List Char) : List Nat :=
  (s.map utf8Char).flatten

/-- `b` is kept literal by `quote(part, safe='')`: ASCII alphanumerics and
`_.-~` only. -/
def unreservedB (b : Nat) : Bool :=
  (48 ≤ b && b ≤ 57) || (65 ≤ b && b ≤ 90) || (97 ≤ b && b ≤ 122) ||
    b = 45 || b = 46 || b = 95 || b = 126

/-- Upper-case hexadecimal digit, as emitted by `urllib.parse.quote`. -/
def hexDigitU (n : Nat) : Char :=
  if n < 10 then Char.ofNat (48 + n) else Char.ofNat (55 + n)

/-- Percent-encoding of one byte under `quote(part, safe='')`. -/
def byteEnc (b : Nat) : List Char :=
  if unreservedB b then [Char.ofNat b] else ['%', hexDigitU (b / 16), hexDigitU (b % 16)]

/-- `urllib.parse.quote(seg, safe='')`: percent-encode every byte of the
UTF-8 encoding that is not unreserved. -/
def quoteSeg (seg : List Char) : List Char :=
  ((utf8L seg).map byteEnc).flatten

/-- Python's `str.split('/')` (keeps empty segments). -/
def pySplit : List Char → List (List Char)
  | [] => [[]]
  | c :: cs =>
    if c = '/' then [] :: pySplit cs
    else
      match pySplit cs with
      | seg :: rest => (c :: seg) :: rest
      | [] => [[c]]

/-- `'/'.join(parts)`. -/
def joinSlash : List (List Char) → List Char
  | [] => []
  | [x] => x
  | x :: xs => x ++ '/' :: joinSlash xs

/-- The loop body of `create_image_tag`: keep the first segment untouched,
drop empty later segments, percent-encode the rest. -/
def encodeParts : List (List Char) → List (List Char)
  | [] => []
  | p0 :: rest => p0 :: (rest.filter (fun x => x ≠ [])).map quoteSeg

/-- The path-encoding part of `create_image_tag` of
`convert_framer_to_mdx.py` (the specification's `encodePath`). -/
def encodePath (local_path : String) : String :=
  ⟨joinSlash (encodeParts (pySplit local_path.data))⟩

/-- `create_image_tag` of `convert_framer_to_mdx.py`. -/
def create_image_tag (local_path : String) : String :=
  "<img src=\"" ++ encodePath local_path ++ "\" alt=\"\" />"

/-- Hexadecimal digit test (both cases), as accepted when percent-decoding. -/
def isHexD (c : Char) : Bool :=
  ('0' ≤ c && c ≤ '9') || ('A' ≤ c && c ≤ 'F') || ('a' ≤ c && c ≤ 'f')

/-- Value of a hexadecimal digit. -/
def hexVal (c : Char) : Nat :=
  if '0' ≤ c ∧ c ≤ '9' then c.toNat - 48
  else if 'A' ≤ c ∧ c ≤ 'F' then c.toNat - 55
  else if 'a' ≤ c ∧ c ≤ 'f' then c.toNat - 87
  else 0

/-- Percent-decoding of a segment, at the byte level: `%XX` becomes the
byte `XX`; any other character contributes its UTF-8 bytes.  This is the
byte sequence of `urllib.parse.unquote` of the segment. -/
def percentDecodeBytes : List Char → List Nat
  | [] => []
  | '%' :: a :: b :: r2 =>
    if isHexD a && isHexD b then (hexVal a * 16 + hexVal b) :: percentDecodeBytes r2
    else 37 :: percentDecodeBytes (a :: b :: r2)
  | '%' :: r => 37 :: percentDecodeBytes r
  | c :: r => utf8Char c ++ percentDecodeBytes r

/-- Scanner for `<tr[^>]*>(.*?)</tr>` (DOTALL); reports the row content. -/
def trMA (t : List Char) : Option (List Char × List Char) :=
  match afterLit "<tr".data t with
  | none => none
  | some r =>
    match r.dropWhile (· ≠ '>') with
    | '>' :: r2 =>
      match splitUntil "</tr>".data r2 with
      | some (g, rest) => some (g, rest)
      | none => none
    | _ => none

/-- Scanner for `<th[^>]*>(.*?)</th>` (DOTALL); reports the cell content. -/
def thMA (t : List Char) : Option (List Char × List Char) :=
  match afterLit "<th".data t with
  | none => none
  | some r =>
    match r.dropWhile (· ≠ '>') with
    | '>' :: r2 =>
      match splitUntil "</th>".data r2 with
      | some (g, rest) => some (g, rest)
      | none => none
    | _ => none

/-- Scanner for `<td[^>]*>(.*?)</td>` (DOTALL); reports the cell content. -/
def tdMA (t : List Char) : Option (List Char × List Char) :=
  match afterLit "<td".data t with
  | none => none
  | some r =>
    match r.dropWhile (· ≠ '>') with
    | '>' :: r2 =>
      match splitUntil "</td>".data r2 with
      | some (g, rest) => some (g, rest)
      | none => none
    | _ => none

/-- Cell cleanup of `convert_table` (source lines 144-148 of
`convert_onboarding_docs.py`): strip `<p>`, convert
`<strong>`/`<em>`/`<code>`, unescape, strip. -/
def cleanCell (g : List Char) : List Char :=
  pyStrip (unescape (subM codeMA (subM emMA (subM strongMA (subM pMAli g)))))

/-- Extract the cells of one table row: header rows (containing a `<th>`
cell) use the `th` pattern, other rows the `td` pattern. -/
def rowCells (row : List Char) : List (List Char) :=
  (if containsL "<th>".data row || containsL "<th ".data row
   then findAllVal thMA row else findAllVal tdMA row).map cleanCell

/-- The rows the table converter extracts: rows with no cells are
dropped. -/
def extractRows (tableHtml : List Char) : List (List (List Char)) :=
  ((findAllVal trMA tableHtml).map rowCells).filter (fun cs => cs ≠ [])

/-- `sep.join(parts)`. -/
def intercal (sep : List Char) : List (List Char) → List Char
  | [] => []
  | [x] => x
  | x :: xs => x ++ sep ++ intercal sep xs

/-- One Markdown table line: `'| ' + ' | '.join(cells) + ' |'`. -/
def rowLine (cells : List (List Char)) : List Char :=
  "| ".data ++ intercal " | ".data cells ++ " |".data

/-- The separator line: `'| ' + ' | '.join(['---'] * n) + ' |'`. -/
def sepLine (n : Nat) : List Char :=
  rowLine (List.replicate n "---".data)

/-- The Markdown lines built by `convert_table`: the first extracted row
is the header, the separator has as many `---` cells as the header, the
remaining rows follow with their own cell counts. -/
def tableLines : List (List (List Char)) → List (List Char)
  | [] => []
  | header :: rest => rowLine header :: sepLine header.length :: rest.map rowLine

/-- `convert_table` of `convert_onboarding_docs.py` on the matched table
text: a table with no extracted rows is returned verbatim; otherwise the
Markdown table surrounded by blank lines. -/
def convert_tableL (tableHtml : List Char) : List Char :=
  if extractRows tableHtml = [] then tableHtml
  else "\n\n".data ++ intercal ['\n'] (tableLines (extractRows tableHtml)) ++ "\n\n".data

/-- `convert_table` of `convert_onboarding_docs.py`. -/
def convert_table (tableHtml : String) : String :=
  ⟨convert_tableL tableHtml.data⟩

/-- Step 6 of the converter, as one transformation: the four
inline-formatting substitutions of `html_to_markdown` (bold, italic,
code, link) in source order (lines 132-140 of
`convert_framer_to_mdx.py`). -/
def inlinePass (s : List Char) : List Char :=
  subM aMA (subM codeMA (subM emMA (subM strongMA s)))

/-- `s` contains no leftover inline-formatting tag text: no `<strong>`,
`<em>`, `<code>`, and no `<a`. -/
def noInlineTags (s : List Char) : Bool :=
  !containsL "<strong>".data s && !containsL "<em>".data s &&
    !containsL "<code>".data s && !containsL "<a".data s

/-- The given tag strings occur in `s` in the given order, each
immediately preceded and followed by a blank line. -/
def paddedSeq : List (List Char) → List Char → Prop
  | [], _ => True
  | tg :: tgs, s =>
    ∃ a b, s = a ++ '\n' :: '\n' :: (tg ++ '\n' :: '\n' :: b) ∧ paddedSeq tgs b

theorem afterLit_eq : ∀ (lit s r : List Char), afterLit lit s = some r → s = lit ++ r := by
  intro lit
  induction lit with
  | nil =>
    intro s r h
    simp only [afterLit, Option.some.injEq] at h
    simp [h]
  | cons c cs ih =>
    intro s r h
    match s with
    | [] => simp [afterLit] at h
    | x :: xs =>
      simp only [afterLit] at h
      by_cases hx : x = c
      · rw [if_pos hx] at h
        subst hx
        simpa using ih xs r h
      · rw [if_neg hx] at h
        exact absurd h (by simp)

theorem afterLit_append : ∀ (lit r : List Char), afterLit lit (lit ++ r) = some r := by
  intro lit
  induction lit with
  | nil => intro r; rfl
  | cons c cs ih => intro r; simp [afterLit, ih]

theorem splitUntil_eq : ∀ (cl s g r : List Char),
    splitUntil cl s = some (g, r) → s = g ++ cl ++ r := by
  intro cl s
  induction s with
  | nil =>
    intro g r h
    simp only [splitUntil] at h
    cases ha : afterLit cl [] with
    | none => rw [ha] at h; exact absurd h (by simp)
    | some r0 =>
      rw [ha] at h
      simp only [Option.some.injEq, Prod.mk.injEq] at h
      obtain ⟨hg, hr⟩ := h
      subst hg; subst hr
      simpa using afterLit_eq cl [] r0 ha
  | cons c cs ih =>
    intro g r h
    simp only [splitUntil] at h
    cases ha : afterLit cl (c :: cs) with
    | some r0 =>
      rw [ha] at h
      simp only [Option.some.injEq, Prod.mk.injEq] at h
      obtain ⟨hg, hr⟩ := h
      subst hg; subst hr
      simpa using afterLit_eq cl (c :: cs) r0 ha
    | none =>
      rw [ha] at h
      cases hs : splitUntil cl cs with
      | none => rw [hs] at h; exact absurd h (by simp)
      | some gr =>
        obtain ⟨g0, r0⟩ := gr
        rw [hs] at h
        simp only [Option.some.injEq, Prod.mk.injEq] at h
        obtain ⟨hg, hr⟩ := h
        subst hg; subst hr
        simpa using ih g0 r0 hs

theorem splitUntilNoNl_eq : ∀ (cl s g r : List Char),
    splitUntilNoNl cl s = some (g, r) → s = g ++ cl ++ r := by
  intro cl s
  induction s with
  | nil =>
    intro g r h
    simp only [splitUntilNoNl] at h
    cases ha : afterLit cl [] with
    | none => rw [ha] at h; exact absurd h (by simp)
    | some r0 =>
      rw [ha] at h
      simp only [Option.some.injEq, Prod.mk.injEq] at h
      obtain ⟨hg, hr⟩ := h
      subst hg; subst hr
      simpa using afterLit_eq cl [] r0 ha
  | cons c cs ih =>
    intro g r h
    simp only [splitUntilNoNl] at h
    cases ha : afterLit cl (c :: cs) with
    | some r0 =>
      rw [ha] at h
      simp only [Option.some.injEq, Prod.mk.injEq] at h
      obtain ⟨hg, hr⟩ := h
      subst hg; subst hr
      simpa using afterLit_eq cl (c :: cs) r0 ha
    | none =>
      rw [ha] at h
      by_cases hc : c = '\n'
      · rw [if_pos hc] at h; exact absurd h (by simp)
      · rw [if_neg hc] at h
        cases hs : splitUntilNoNl cl cs with
        | none => rw [hs] at h; exact absurd h (by simp)
        | some gr =>
          obtain ⟨g0, r0⟩ := gr
          rw [hs] at h
          simp only [Option.some.injEq, Prod.mk.injEq] at h
          obtain ⟨hg, hr⟩ := h
          subst hg; subst hr
          simpa using ih g0 r0 hs

theorem containsL_cons (pat : List Char) (c : Char) (cs : List Char) :
    containsL pat (c :: cs) = (hasLead pat (c :: cs) || containsL pat cs) := rfl

theorem spanEq (p : Char → Bool) (t d : List Char) (hd : t.dropWhile p = d) :
    t = t.takeWhile p ++ d := by
  rw [← hd]
  exact (List.takeWhile_append_dropWhile p t).symm

theorem subFuel_fuelIrrel (mA : List Char → Option (List Char × List Char × List Char))
    (hspec : MASpec mA) :
    ∀ (f₁ : Nat) (s : List Char) (f₂ : Nat), s.length ≤ f₁ → s.length ≤ f₂ →
      subFuel f₁ mA s = subFuel f₂ mA s := by
  intro f₁
  induction f₁ with
  | zero =>
    intro s f₂ h1 _
    have hs : s = [] := List.eq_nil_of_length_eq_zero (Nat.le_zero.mp h1)
    subst hs
    cases f₂ with
    | zero => rfl
    | succ g =>
      simp only [subFuel]
      cases hma : mA [] with
      | none => rfl
      | some x =>
        obtain ⟨m, r, rest⟩ := x
        obtain ⟨heq, hne⟩ := hspec [] m r rest hma
        cases m with
        | nil => exact absurd rfl hne
        | cons _ _ => exact absurd heq.symm (by simp)
  | succ f ih =>
    intro s f₂ h1 h2
    cases hma : mA s with
    | some x =>
      obtain ⟨m, r, rest⟩ := x
      obtain ⟨heq, hne⟩ := hspec s m r rest hma
      have hm1 : 1 ≤ m.length := by
        cases m with
        | nil => exact absurd rfl hne
        | cons _ _ => simp
      have hrest : rest.length + 1 ≤ s.length := by
        subst heq; simp only [List.length_append]; omega
      cases f₂ with
      | zero => omega
      | succ g =>
        simp only [subFuel, hma]
        exact congrArg (r ++ ·) (ih rest g (by omega) (by omega))
    | none =>
      cases s with
      | nil =>
        cases f₂ with
        | zero => simp [subFuel, hma]
        | succ g => simp only [subFuel, hma]
      | cons c cs =>
        cases f₂ with
        | zero => simp at h2
        | succ g =>
          simp only [subFuel, hma]
          exact congrArg (c :: ·) (ih cs g (by simp at h1; omega) (by simp at h2; omega))

theorem subFuel_eq_subM (mA : List Char → Option (List Char × List Char × List Char))
    (hspec : MASpec mA) (f : Nat) (s : List Char) (h : s.length ≤ f) :
    subFuel f mA s = subM mA s :=
  subFuel_fuelIrrel mA hspec f s s.length h le_rfl

theorem subFuel_congr (mA₁ mA₂ : List Char → Option (List Char × List Char × List Char))
    (hspec : MASpec mA₂) :
    ∀ (f : Nat) (s : List Char), (∀ t, t.length ≤ s.length → mA₁ t = mA₂ t) →
      subFuel f mA₁ s = subFuel f mA₂ s := by
  intro f
  induction f with
  | zero => intros; rfl
  | succ f ih =>
    intro s h
    simp only [subFuel]
    rw [h s le_rfl]
    cases hma : mA₂ s with
    | some x =>
      obtain ⟨m, r, rest⟩ := x
      obtain ⟨heq, _⟩ := hspec s m r rest hma
      have hrest : rest.length ≤ s.length := by
        subst heq; simp only [List.length_append]; omega
      exact congrArg (r ++ ·) (ih rest (fun t ht => h t (le_trans ht hrest)))
    | none =>
      cases s with
      | nil => rfl
      | cons c cs =>
        exact congrArg (c :: ·) (ih cs (fun t ht => h t (by simp; omega)))

theorem subFuel_length (mA : List Char → Option (List Char × List Char × List Char))
    (hspec : MASpec mA) (hb : ReplBound mA) :
    ∀ (f : Nat) (s : List Char), (subFuel f mA s).length ≤ s.length := by
  intro f
  induction f with
  | zero => intro s; exact le_rfl
  | succ f ih =>
    intro s
    simp only [subFuel]
    cases hma : mA s with
    | some x =>
      obtain ⟨m, r, rest⟩ := x
      obtain ⟨heq, _⟩ := hspec s m r rest hma
      have hr := hb s m r rest hma
      have := ih rest
      subst heq
      simp only [List.length_append]
      omega
    | none =>
      cases s with
      | nil => simp
      | cons c cs =>
        have := ih cs
        simp only [List.length_cons]
        omega

theorem subM_length (mA : List Char → Option (List Char × List Char × List Char))
    (hspec : MASpec mA) (hb : ReplBound mA) (s : List Char) :
    (subM mA s).length ≤ s.length :=
  subFuel_length mA hspec hb s.length s

/-- Every match reported by `mA` starts with the literal `lit`. -/
def HeadLit (lit : List Char) (mA : List Char → Option (List Char × List Char × List Char)) : Prop :=
  ∀ t x, mA t = some x → hasLead lit t = true

theorem subFuel_id_of_no_lead (mA : List Char → Option (List Char × List Char × List Char))
    (lit : List Char) (hh : HeadLit lit mA) :
    ∀ (f : Nat) (s : List Char), containsL lit s = false → subFuel f mA s = s := by
  intro f
  induction f with
  | zero => intros; rfl
  | succ f ih =>
    intro s h
    have hml : mA s = none := by
      cases hma : mA s with
      | none => rfl
      | some x =>
        have hl := hh s x hma
        cases s with
        | nil => simp [containsL] at h; simp [h] at hl
        | cons c cs =>
          rw [containsL_cons] at h
          simp only [Bool.or_eq_false_iff] at h
          simp [h.1] at hl
    simp only [subFuel, hml]
    cases s with
    | nil => rfl
    | cons c cs =>
      rw [containsL_cons] at h
      simp only [Bool.or_eq_false_iff] at h
      exact congrArg (c :: ·) (ih cs h.2)

theorem subM_id_of_no_lead (mA : List Char → Option (List Char × List Char × List Char))
    (lit : List Char) (hh : HeadLit lit mA) (s : List Char)
    (h : containsL lit s = false) : subM mA s = s :=
  subFuel_id_of_no_lead mA lit hh s.length s h

theorem pairMA_spec (op cl : List Char) (noNl : Bool) (repl : List Char → List Char)
    (hop : op ≠ []) : MASpec (pairMA op cl noNl repl) := by
  intro t m r rest h
  unfold pairMA at h
  split at h
  · exact absurd h (by simp)
  · rename_i r0 ha
    split at h
    · exact absurd h (by simp)
    · rename_i gr g rest' hs
      simp only [Option.some.injEq, Prod.mk.injEq] at h
      obtain ⟨hm, -, hrest⟩ := h
      have h1 : t = op ++ r0 := afterLit_eq op t r0 ha
      have h2 : r0 = g ++ cl ++ rest' := by
        cases noNl with
        | true =>
          simp only [if_pos] at hs
          exact splitUntilNoNl_eq cl r0 g rest' hs
        | false =>
          simp only [Bool.false_eq_true, if_neg, not_false_iff] at hs
          exact splitUntil_eq cl r0 g rest' hs
      constructor
      · rw [← hm, ← hrest, h1, h2]; simp [List.append_assoc]
      · rw [← hm]
        cases op with
        | nil => exact absurd rfl hop
        | cons _ _ => simp

theorem pairMA_head (op cl : List Char) (noNl : Bool) (repl : List Char → List Char) :
    HeadLit op (pairMA op cl noNl repl) := by
  intro t x h
  unfold pairMA at h
  split at h
  · exact absurd h (by simp)
  · rename_i r0 ha
    simp [hasLead, ha]

theorem pairMA_bound (op cl : List Char) (noNl : Bool) (repl : List Char → List Char)
    (hrepl : ∀ g, (repl g).length ≤ op.length + g.length + cl.length) :
    ReplBound (pairMA op cl noNl repl) := by
  intro t m r rest h
  unfold pairMA at h
  split at h
  · exact absurd h (by simp)
  · split at h
    · exact absurd h (by simp)
    · rename_i gr g rest' hs
      simp only [Option.some.injEq, Prod.mk.injEq] at h
      obtain ⟨hm, hr, -⟩ := h
      rw [← hm, ← hr]
      have := hrepl g
      simp only [List.length_append] at this ⊢
      omega

theorem strongMA_spec : MASpec strongMA := pairMA_spec _ _ _ _ (by decide)
theorem emMA_spec : MASpec emMA := pairMA_spec _ _ _ _ (by decide)
theorem codeMA_spec : MASpec codeMA := pairMA_spec _ _ _ _ (by decide)
theorem pMAmain_spec : MASpec pMAmain := pairMA_spec _ _ _ _ (by decide)
theorem pMAli_spec : MASpec pMAli := pairMA_spec _ _ _ _ (by decide)
theorem h3MA_spec : MASpec h3MA := pairMA_spec _ _ _ _ (by decide)
theorem h4MA_spec : MASpec h4MA := pairMA_spec _ _ _ _ (by decide)

theorem strongMA_bound : ReplBound strongMA := by
  apply pairMA_bound
  intro g
  simp only [List.length_append, List.length_cons, List.length_nil]
  omega

theorem emMA_bound : ReplBound emMA := by
  apply pairMA_bound
  intro g
  simp only [List.length_append, List.length_cons, List.length_nil]
  omega

theorem codeMA_bound : ReplBound codeMA := by
  apply pairMA_bound
  intro g
  simp only [List.length_append, List.length_cons, List.length_nil]
  omega

theorem pMAmain_bound : ReplBound pMAmain := by
  apply pairMA_bound
  intro g
  simp only [List.length_append, List.length_cons, List.length_nil]
  omega

theorem pMAli_bound : ReplBound pMAli := by
  apply pairMA_bound
  intro g
  simp only [List.length_append, List.length_cons, List.length_nil]
  omega

theorem h3MA_bound : ReplBound h3MA := by
  apply pairMA_bound
  intro g
  simp only [List.length_append, List.length_cons, List.length_nil]
  omega

theorem h4MA_bound : ReplBound h4MA := by
  apply pairMA_bound
  intro g
  simp only [List.length_append, List.length_cons, List.length_nil]
  omega

theorem brMA_spec : MASpec brMA := by
  intro t m r rest h
  unfold brMA at h
  split at h
  · exact absurd h (by simp)
  · rename_i r0 ha
    have h1 : t = "<br".data ++ r0 := afterLit_eq _ t r0 ha
    split at h
    · rename_i rest' hd
      have h3 : r0 = r0.takeWhile reWs ++ ('/' :: '>' :: rest') := spanEq reWs r0 _ hd
      simp only [Option.some.injEq, Prod.mk.injEq] at h
      obtain ⟨hm, -, hrest⟩ := h
      subst hm; subst hrest
      constructor
      · rw [h1]
        conv_lhs => rw [h3]
        simp [List.append_assoc]
      · simp
    · rename_i rest' hd
      have h3 : r0 = r0.takeWhile reWs ++ ('>' :: rest') := spanEq reWs r0 _ hd
      simp only [Option.some.injEq, Prod.mk.injEq] at h
      obtain ⟨hm, -, hrest⟩ := h
      subst hm; subst hrest
      constructor
      · rw [h1]
        conv_lhs => rw [h3]
        simp [List.append_assoc]
      · simp
    · exact absurd h (by simp)

theorem brMA_bound : ReplBound brMA := by
  intro t m r rest h
  unfold brMA at h
  split at h
  · exact absurd h (by simp)
  · split at h
    · simp only [Option.some.injEq, Prod.mk.injEq] at h
      obtain ⟨hm, hr, -⟩ := h
      rw [← hm, ← hr]
      simp only [List.length_append, List.length_cons, List.length_nil]
      omega
    · simp only [Option.some.injEq, Prod.mk.injEq] at h
      obtain ⟨hm, hr, -⟩ := h
      rw [← hm, ← hr]
      simp only [List.length_append, List.length_cons, List.length_nil]
      omega
    · exact absurd h (by simp)

theorem br2MA_spec : MASpec br2MA := by
  intro t m r rest h
  unfold br2MA at h
  split at h
  · exact absurd h (by simp)
  · rename_i r0 ha
    simp only [Option.some.injEq, Prod.mk.injEq] at h
    obtain ⟨hm, -, hrest⟩ := h
    constructor
    · rw [← hm, ← hrest]; exact afterLit_eq _ t r0 ha
    · rw [← hm]; simp

theorem br2MA_bound : ReplBound br2MA := by
  intro t m r rest h
  unfold br2MA at h
  split at h
  · exact absurd h (by simp)
  · simp only [Option.some.injEq, Prod.mk.injEq] at h
    obtain ⟨hm, hr, -⟩ := h
    rw [← hm, ← hr]
    simp

theorem nl3MA_spec : MASpec nl3MA := by
  intro t m r rest h
  unfold nl3MA at h
  split at h
  · exact absurd h (by simp)
  · rename_i hlen
    simp only [Option.some.injEq, Prod.mk.injEq] at h
    obtain ⟨hm, -, hrest⟩ := h
    constructor
    · rw [← hm, ← hrest]
      exact (List.takeWhile_append_dropWhile _ t).symm
    · rw [← hm]
      intro hnil
      rw [hnil] at hlen
      simp at hlen

theorem nl3MA_bound : ReplBound nl3MA := by
  intro t m r rest h
  unfold nl3MA at h
  split at h
  · exact absurd h (by simp)
  · rename_i hlen
    simp only [Option.some.injEq, Prod.mk.injEq] at h
    obtain ⟨hm, hr, -⟩ := h
    rw [← hm, ← hr]
    simp only [List.length_cons, List.length_nil]
    omega

theorem wsNlMA_spec : MASpec wsNlMA := by
  intro t m r rest h
  unfold wsNlMA at h
  split at h
  · rename_i rest' hd
    have h3 : t = t.takeWhile (fun c => c = ' ' || c = '\t') ++ ('\n' :: rest') :=
      spanEq _ t _ hd
    split at h
    · exact absurd h (by simp)
    · simp only [Option.some.injEq, Prod.mk.injEq] at h
      obtain ⟨hm, -, hrest⟩ := h
      subst hm; subst hrest
      constructor
      · conv_lhs => rw [h3]
        simp [List.append_assoc]
      · simp
  · exact absurd h (by simp)

theorem wsNlMA_bound : ReplBound wsNlMA := by
  intro t m r rest h
  unfold wsNlMA at h
  split at h
  · split at h
    · exact absurd h (by simp)
    · simp only [Option.some.injEq, Prod.mk.injEq] at h
      obtain ⟨hm, hr, -⟩ := h
      rw [← hm, ← hr]
      simp only [List.length_append, List.length_cons, List.length_nil]
      omega
  · exact absurd h (by simp)

theorem angleRest_spec (lead r m rep rest : List Char)
    (h : angleRest lead r = some (m, rep, rest)) :
    lead ++ r = m ++ rest ∧ m ≠ [] ∧ rep = [] := by
  unfold angleRest at h
  split at h
  · rename_i rest' hd
    have h3 : r = r.takeWhile (· ≠ '>') ++ ('>' :: rest') := spanEq _ r _ hd
    simp only [Option.some.injEq, Prod.mk.injEq] at h
    obtain ⟨hm, hrep, hrest⟩ := h
    subst hm; subst hrest
    refine ⟨?_, ?_, hrep.symm⟩
    · conv_lhs => rw [h3]
      simp [List.append_assoc]
    · simp
  · exact absurd h (by simp)

theorem closeTagMA_spec (word : List Char) : MASpec (closeTagMA word) := by
  intro t m r rest h
  unfold closeTagMA at h
  split at h
  · rename_i r0 ha
    obtain ⟨he, hne, -⟩ := angleRest_spec _ _ _ _ _ h
    exact ⟨by rw [← he, afterLit_eq _ t r0 ha], hne⟩
  · split at h
    · rename_i r0 ha
      obtain ⟨he, hne, -⟩ := angleRest_spec _ _ _ _ _ h
      exact ⟨by rw [← he, afterLit_eq _ t r0 ha], hne⟩
    · exact absurd h (by simp)

theorem closeTagMA_bound (word : List Char) : ReplBound (closeTagMA word) := by
  intro t m r rest h
  unfold closeTagMA at h
  split at h
  · obtain ⟨-, -, hrep⟩ := angleRest_spec _ _ _ _ _ h
    rw [hrep]; simp
  · split at h
    · obtain ⟨-, -, hrep⟩ := angleRest_spec _ _ _ _ _ h
      rw [hrep]; simp
    · exact absurd h (by simp)

theorem ulMA_spec : MASpec ulMA := closeTagMA_spec _
theorem olMA_spec : MASpec olMA := closeTagMA_spec _
theorem ulMA_bound : ReplBound ulMA := closeTagMA_bound _
theorem olMA_bound : ReplBound olMA := closeTagMA_bound _

theorem tryEntity_spec : ∀ (es : List (List Char × Char)) (r : List Char) (ch : Char)
    (rest : List Char), tryEntity es r = some (ch, rest) → ∃ nm, r = nm ++ rest := by
  intro es
  induction es with
  | nil => intro r ch rest h; simp [tryEntity] at h
  | cons e es ih =>
    intro r ch rest h
    obtain ⟨nm, c2⟩ := e
    unfold tryEntity at h
    split at h
    · rename_i rest0 ha
      simp only [Option.some.injEq, Prod.mk.injEq] at h
      obtain ⟨-, hrest⟩ := h
      subst hrest
      exact ⟨nm, afterLit_eq nm r rest0 ha⟩
    · exact ih r ch rest h

theorem unescapeF_length : ∀ (f : Nat) (s : List Char), (unescapeF f s).length ≤ s.length := by
  intro f
  induction f with
  | zero => intro s; exact le_rfl
  | succ f ih =>
    intro s
    cases s with
    | nil => simp [unescapeF]
    | cons c r =>
      simp only [unescapeF]
      by_cases hc : c = '&'
      · rw [if_pos hc]
        split
        · rename_i ch rest hte
          obtain ⟨nm, hr⟩ := tryEntity_spec entityTable r ch rest hte
          have := ih rest
          subst hr
          simp only [List.length_cons, List.length_append]
          omega
        · simp only [List.length_cons]
          exact Nat.succ_le_succ (ih r)
      · rw [if_neg hc]
        simp only [List.length_cons]
        exact Nat.succ_le_succ (ih r)

theorem unescape_length (s : List Char) : (unescape s).length ≤ s.length :=
  unescapeF_length s.length s

theorem pyStrip_length (s : List Char) : (pyStrip s).length ≤ s.length := by
  unfold pyStrip
  have h1 : (s.dropWhile pyWs).length ≤ s.length := (List.dropWhile_sublist _).length_le
  have h2 : ((s.dropWhile pyWs).reverse.dropWhile pyWs).length ≤
      (s.dropWhile pyWs).reverse.length := (List.dropWhile_sublist _).length_le
  simp only [List.length_reverse] at h2 ⊢
  omega

theorem aParseTail_spec (v url mid2 txt rest : List Char)
    (h : aParseTail v = some (url, mid2, txt, rest)) :
    v = url ++ '"' :: (mid2 ++ '>' :: (txt ++ "</a>".data ++ rest)) ∧
      url = v.takeWhile (· ≠ '"') ∧ mid2.length + 1 ≤ v.length := by
  unfold aParseTail at h
  split at h
  · rename_i w hd1
    have hv : v = v.takeWhile (· ≠ '"') ++ ('"' :: w) := spanEq _ v _ hd1
    split at h
    · exact absurd h (by simp)
    · split at h
      · rename_i x hd2
        have hw : w = w.takeWhile (· ≠ '>') ++ ('>' :: x) := spanEq _ w _ hd2
        split at h
        · rename_i txt0 rest0 hsp
          have hx : x = txt0 ++ "</a>".data ++ rest0 := splitUntilNoNl_eq _ x txt0 rest0 hsp
          simp only [Option.some.injEq, Prod.mk.injEq] at h
          obtain ⟨hurl, hmid, htxt, hrest⟩ := h
          subst hurl; subst hmid; subst htxt; subst hrest
          refine ⟨?_, rfl, ?_⟩
          · conv_lhs => rw [hv, hw, hx]
          · have e1 : v.length = (v.takeWhile (· ≠ '"')).length + 1 + w.length := by
              conv_lhs => rw [hv]
              simp only [List.length_append, List.length_cons]
              omega
            have e2 : w.length = (w.takeWhile (· ≠ '>')).length + 1 + x.length := by
              conv_lhs => rw [hw]
              simp only [List.length_append, List.length_cons]
              omega
            omega
        · exact absurd h (by simp)
      · exact absurd h (by simp)
  · exact absurd h (by simp)

theorem aTryAt_shape (tr : List Char) : ∀ (k : Nat) (m r rest : List Char),
    aTryAt tr k = some (m, r, rest) →
    ∃ k1 url mid2 txt,
      m = "<a".data ++ tr.take k1 ++ "href=\"".data ++ url ++ '"' :: mid2 ++ '>' :: txt ++
        "</a>".data ∧
      r = '[' :: txt ++ "](".data ++ url ++ [')'] ∧
      "<a".data ++ tr = m ++ rest := by
  intro k
  induction k with
  | zero => intro m r rest h; simp [aTryAt] at h
  | succ k ih =>
    intro m r rest h
    unfold aTryAt at h
    split at h
    · rename_i v ha
      split at h
      · rename_i url0 mid0 txt0 rest0 hp
        simp only [Option.some.injEq, Prod.mk.injEq] at h
        obtain ⟨hm, hr, hrest⟩ := h
        subst hm; subst hr; subst hrest
        refine ⟨k + 1, url0, mid0, txt0, rfl, rfl, ?_⟩
        have hdrop : tr.drop (k + 1) = "href=\"".data ++ v := afterLit_eq _ _ v ha
        obtain ⟨hv, -, -⟩ := aParseTail_spec v url0 mid0 txt0 rest0 hp
        have htr : tr = tr.take (k + 1) ++ tr.drop (k + 1) := (List.take_append_drop (k + 1) tr).symm
        conv_lhs => rw [htr, hdrop, hv]
        simp [List.append_assoc]
      · exact ih m r rest h
    · exact ih m r rest h

theorem aMA_spec : MASpec aMA := by
  intro t m r rest h
  unfold aMA at h
  split at h
  · exact absurd h (by simp)
  · rename_i tr ha
    obtain ⟨k1, url, mid2, txt, hm, -, heq⟩ := aTryAt_shape tr _ m r rest h
    refine ⟨?_, ?_⟩
    · rw [afterLit_eq _ t tr ha, heq]
    · rw [hm]; simp

theorem aMA_bound : ReplBound aMA := by
  intro t m r rest h
  unfold aMA at h
  split at h
  · exact absurd h (by simp)
  · obtain ⟨k1, url, mid2, txt, hm, hr, -⟩ := aTryAt_shape _ _ m r rest h
    rw [hm, hr]
    simp only [List.length_append, List.length_cons, List.length_nil]
    omega

theorem aMA_head : HeadLit "<a".data aMA := by
  intro t x h
  unfold aMA at h
  split at h
  · exact absurd h (by simp)
  · rename_i tr ha
    simp [hasLead, ha]

theorem leafLi_length (g : List Char) : (leafLi g).length ≤ g.length := by
  unfold leafLi
  have h0 := subM_length pMAli pMAli_spec pMAli_bound g
  have h1 := subM_length strongMA strongMA_spec strongMA_bound (subM pMAli g)
  have h2 := subM_length emMA emMA_spec emMA_bound (subM strongMA (subM pMAli g))
  have h3 := subM_length codeMA codeMA_spec codeMA_bound
    (subM emMA (subM strongMA (subM pMAli g)))
  have h4 := subM_length aMA aMA_spec aMA_bound
    (subM codeMA (subM emMA (subM strongMA (subM pMAli g))))
  have h5 := unescape_length (subM aMA (subM codeMA (subM emMA (subM strongMA (subM pMAli g)))))
  have h6 := pyStrip_length
    (unescape (subM aMA (subM codeMA (subM emMA (subM strongMA (subM pMAli g))))))
  omega

theorem liMA_spec (rec : List Char → List Char) : MASpec (liMA rec) := by
  intro t m r rest h
  unfold liMA at h
  split at h
  · exact absurd h (by simp)
  · rename_i r0 ha
    split at h
    · rename_i r2 hd
      split at h
      · exact absurd h (by simp)
      · rename_i g rest' hsp
        have h1 : t = "<li".data ++ r0 := afterLit_eq _ t r0 ha
        have h3 : r0 = r0.takeWhile (· ≠ '>') ++ ('>' :: r2) := spanEq _ r0 _ hd
        have h4 : r2 = g ++ "</li>".data ++ rest' := splitUntil_eq _ r2 g rest' hsp
        simp only [Option.some.injEq, Prod.mk.injEq] at h
        obtain ⟨hm, -, hrest⟩ := h
        subst hm; subst hrest
        constructor
        · rw [h1]
          conv_lhs => rw [h3, h4]
          simp [List.append_assoc]
        · simp
    · exact absurd h (by simp)

theorem liMA_bound (rec : List Char → List Char) (hrec : ∀ g, (rec g).length ≤ g.length) :
    ReplBound (liMA rec) := by
  intro t m r rest h
  unfold liMA at h
  split at h
  · exact absurd h (by simp)
  · split at h
    · split at h
      · exact absurd h (by simp)
      · rename_i g rest' hsp
        simp only [Option.some.injEq, Prod.mk.injEq] at h
        obtain ⟨hm, hr, -⟩ := h
        subst hm; subst hr
        simp only [List.length_append, List.length_cons, List.length_nil]
        split
        · have := hrec g; omega
        · have := leafLi_length g; omega
    · exact absurd h (by simp)

theorem liMA_congr (rec₁ rec₂ : List Char → List Char) (t : List Char)
    (h : ∀ g, g.length < t.length → rec₁ g = rec₂ g) : liMA rec₁ t = liMA rec₂ t := by
  unfold liMA
  split
  · rfl
  · rename_i r0 ha
    split
    · rename_i r2 hd
      split
      · rfl
      · rename_i g rest' hsp
        have h1 : t = "<li".data ++ r0 := afterLit_eq _ t r0 ha
        have h3 : r0 = r0.takeWhile (· ≠ '>') ++ ('>' :: r2) := spanEq _ r0 _ hd
        have h4 : r2 = g ++ "</li>".data ++ rest' := splitUntil_eq _ r2 g rest' hsp
        have hlen : g.length < t.length := by
          have e1 : t.length = 3 + r0.length := by
            rw [h1]
            simp only [List.length_append, List.length_cons, List.length_nil]
          have e2 : r0.length = (r0.takeWhile (· ≠ '>')).length + 1 + r2.length := by
            conv_lhs => rw [h3]
            simp only [List.length_append, List.length_cons]
            omega
          have e3 : r2.length = g.length + 5 + rest'.length := by
            conv_lhs => rw [h4]
            simp only [List.length_append, List.length_cons, List.length_nil]
          omega
        by_cases hco : (containsL "<ul>".data g || containsL "<ol>".data g) = true
        · rw [if_pos hco, if_pos hco, h g hlen]
        · rw [if_neg hco, if_neg hco]
    · rfl

theorem applyN_le (g : List Char → List Char) (hg : ∀ t, (g t).length ≤ t.length) :
    ∀ (n : Nat) (s : List Char), (applyN n g s).length ≤ s.length := by
  intro n
  induction n with
  | zero => intro s; exact le_rfl
  | succ n ih =>
    intro s
    exact le_trans (ih (g s)) (hg s)

theorem applyN_congr : ∀ (n : Nat) (g₁ g₂ : List Char → List Char) (s : List Char),
    (∀ t, (g₂ t).length ≤ t.length) →
    (∀ t, t.length ≤ s.length → g₁ t = g₂ t) →
    applyN n g₁ s = applyN n g₂ s := by
  intro n
  induction n with
  | zero => intros; rfl
  | succ n ih =>
    intro g₁ g₂ s hlen h
    simp only [applyN]
    rw [h s le_rfl]
    exact ih g₁ g₂ (g₂ s) hlen (fun t ht => h t (le_trans ht (hlen s)))

theorem process_listsF_length : ∀ (f : Nat) (s : List Char),
    (process_listsF f s).length ≤ s.length := by
  intro f
  induction f with
  | zero => intro s; exact le_rfl
  | succ f ih =>
    intro s
    simp only [process_listsF]
    have hsub : ∀ t : List Char, (subM (liMA (process_listsF f)) t).length ≤ t.length :=
      fun t => subM_length _ (liMA_spec _) (liMA_bound _ ih) t
    have h10 := applyN_le (fun u => subM (liMA (process_listsF f)) u) hsub 10 s
    have h1 := subM_length ulMA ulMA_spec ulMA_bound
      (applyN 10 (fun u => subM (liMA (process_listsF f)) u) s)
    have h2 := subM_length olMA olMA_spec olMA_bound
      (subM ulMA (applyN 10 (fun u => subM (liMA (process_listsF f)) u) s))
    omega

theorem process_listsF_fuelIrrel : ∀ (n : Nat), ∀ (s : List Char) (f₁ f₂ : Nat),
    s.length ≤ n → n < f₁ → n < f₂ → process_listsF f₁ s = process_listsF f₂ s := by
  intro n
  induction n using Nat.strong_induction_on with
  | _ n ih =>
    intro s f₁ f₂ hs h1 h2
    cases f₁ with
    | zero => omega
    | succ a =>
      cases f₂ with
      | zero => omega
      | succ b =>
        simp only [process_listsF]
        have hcongr : ∀ t : List Char, t.length ≤ s.length →
            (fun u => subM (liMA (process_listsF a)) u) t
              = (fun u => subM (liMA (process_listsF b)) u) t := by
          intro t ht
          show subFuel t.length (liMA (process_listsF a)) t
            = subFuel t.length (liMA (process_listsF b)) t
          refine subFuel_congr _ _ (liMA_spec _) t.length t ?_
          intro u hu
          apply liMA_congr
          intro g hg
          exact ih g.length (by omega) g a b le_rfl (by omega) (by omega)
        have h10 : applyN 10 (fun u => subM (liMA (process_listsF a)) u) s
            = applyN 10 (fun u => subM (liMA (process_listsF b)) u) s :=
          applyN_congr 10 _ _ s
            (fun t => subM_length _ (liMA_spec _) (liMA_bound _ (process_listsF_length b)) t)
            hcongr
        rw [h10]

/-- C3: the converter is a total text transform: every pass of the
embedding is a total function, and the genuinely recursive pass — the
nested-list flattener `process_lists`, which recurses on list-item
content containing `<ul>`/`<ol>` — is fuel-insensitive: any fuel
exceeding the input length (in particular the `length + 1` used by
`process_lists` inside `html_to_markdown`) yields the same result, i.e.
the source's recursion terminates on every input string, however
malformed. -/
theorem claim_C3_termination (s : List Char) (f : Nat) (h : s.length < f) :
    process_listsF f s = process_lists s :=
  process_listsF_fuelIrrel s.length s f (s.length + 1) le_rfl h (Nat.lt_succ_self _)

theorem claim_C3_termination_witness :
    ("<ul><li>A<ul><li>B</li></ul></li></ul>".data).length < 100 ∧
      process_listsF 100 "<ul><li>A<ul><li>B</li></ul></li></ul>".data
        = process_lists "<ul><li>A<ul><li>B</li></ul></li></ul>".data :=
  ⟨by decide, claim_C3_termination "<ul><li>A<ul><li>B</li></ul></li></ul>".data 100 (by decide)⟩

theorem strongMA_head : HeadLit "<strong>".data strongMA := pairMA_head _ _ _ _
theorem emMA_head : HeadLit "<em>".data emMA := pairMA_head _ _ _ _
theorem codeMA_head : HeadLit "<code>".data codeMA := pairMA_head _ _ _ _

/-- C5 (amended): the inline-formatting transformation (step 6: bold,
italic, code, link, in source order) is idempotent on every input whose
once-transformed text has no leftover `<strong>`, `<em>`, `<code>` or
`<a` tag text.  (On inputs with nested tags the once-transformed text
retains tag text and a second application re-converts it, double-wrapping
the markers — see the counterexample.) -/
theorem claim_C5_inline_idempotent (s : List Char)
    (h : noInlineTags (inlinePass s) = true) :
    inlinePass (inlinePass s) = inlinePass s := by
  have h4 := h
  simp only [noInlineTags, Bool.and_eq_true, Bool.not_eq_true'] at h4
  obtain ⟨⟨⟨h1, h2⟩, h3⟩, h4⟩ := h4
  show subM aMA (subM codeMA (subM emMA (subM strongMA (inlinePass s)))) = inlinePass s
  rw [subM_id_of_no_lead strongMA _ strongMA_head _ h1,
      subM_id_of_no_lead emMA _ emMA_head _ h2,
      subM_id_of_no_lead codeMA _ codeMA_head _ h3,
      subM_id_of_no_lead aMA _ aMA_head _ h4]

theorem claim_C5_counterexample :
    inlinePass (inlinePass "<strong><strong>a</strong></strong>".data) ≠
      inlinePass "<strong><strong>a</strong></strong>".data := by decide

theorem claim_C5_witness :
    noInlineTags (inlinePass "<strong>x</strong>".data) = true ∧
      inlinePass (inlinePass "<strong>x</strong>".data)
        = inlinePass "<strong>x</strong>".data :=
  ⟨by decide, claim_C5_inline_idempotent "<strong>x</strong>".data (by decide)⟩

theorem imgMA_rawspec : ∀ (t m rest : List Char), imgMA t = some (m, rest) →
    t = m ++ rest ∧ m ≠ [] := by
  intro t m rest h
  unfold imgMA at h
  split at h
  · exact absurd h (by simp)
  · rename_i r0 ha
    split at h
    · rename_i rest' hd
      split at h
      · exact absurd h (by simp)
      · simp only [Option.some.injEq, Prod.mk.injEq] at h
        obtain ⟨hm, hrest⟩ := h
        subst hm; subst hrest
        have h1 : t = "<img".data ++ r0 := afterLit_eq _ t r0 ha
        have h3 : r0 = r0.takeWhile (· ≠ '>') ++ ('>' :: rest') := spanEq _ r0 _ hd
        constructor
        · rw [h1]
          conv_lhs => rw [h3]
          simp [List.append_assoc]
        · simp
    · exact absurd h (by simp)

theorem imgMA_min_length : ∀ (t m rest : List Char), imgMA t = some (m, rest) →
    6 ≤ m.length := by
  intro t m rest h
  unfold imgMA at h
  split at h
  · exact absurd h (by simp)
  · rename_i r0 ha
    split at h
    · rename_i rest' hd
      split at h
      · exact absurd h (by simp)
      · rename_i hne
        simp only [Option.some.injEq, Prod.mk.injEq] at h
        obtain ⟨hm, -⟩ := h
        subst hm
        cases htw : r0.takeWhile (· ≠ '>') with
        | nil => rw [htw] at hne; simp at hne
        | cons x xs =>
          simp only [List.length_append, List.length_cons, List.length_nil]
          omega
    · exact absurd h (by simp)

theorem scanFindF_spec (mA : List Char → Option (List Char × List Char))
    (hspec : ∀ t m rest, mA t = some (m, rest) → t = m ++ rest ∧ m ≠ []) :
    ∀ (f : Nat) (s pre m rest : List Char), scanFindF f mA s = some (pre, m, rest) →
      s = pre ++ m ++ rest ∧ m ≠ [] := by
  intro f
  induction f with
  | zero => intro s pre m rest h; simp [scanFindF] at h
  | succ f ih =>
    intro s pre m rest h
    unfold scanFindF at h
    split at h
    · rename_i m0 r0 hma
      simp only [Option.some.injEq, Prod.mk.injEq] at h
      obtain ⟨hpre, hm, hrest⟩ := h
      subst hpre; subst hm; subst hrest
      obtain ⟨heq, hne⟩ := hspec _ _ _ hma
      exact ⟨by simpa using heq, hne⟩
    · exact absurd h (by simp)
    · rename_i c cs hma
      simp only [Option.map_eq_some'] at h
      obtain ⟨⟨pre0, m0, r0⟩, hsf, hx⟩ := h
      simp only [Prod.mk.injEq] at hx
      obtain ⟨hpre, hm, hrest⟩ := hx
      subst hpre; subst hm; subst hrest
      obtain ⟨heq, hne⟩ := ih cs _ _ _ hsf
      exact ⟨by simp [heq], hne⟩

theorem imgFind_spec (s pre m rest : List Char) (h : imgFind s = some (pre, m, rest)) :
    s = pre ++ m ++ rest ∧ m ≠ [] :=
  scanFindF_spec imgMA imgMA_rawspec (s.length + 1) s pre m rest h

theorem imgFind_eq_none_of_countImg_zero (s : List Char) (h : countImg s = 0) :
    imgFind s = none := by
  unfold countImg countImgF at h
  split at h
  · assumption
  · simp at h

theorem subImgL_of_none (s : List Char) (h : imgFind s = none) (tags : List (List Char)) :
    subImgL s tags = s := by
  unfold subImgL subImgF
  rw [h]

/-- C8 (amended, part confirmed): whenever the image pattern
`<img[^>]+>` has no match in `htmlBody` (in particular whenever the body
contains no `<img` text at all), the output of `convert` is entirely
independent of the `imageTags` argument. -/
theorem claim_C8_tags_independent (htmlBody : String) (h : countImg htmlBody.data = 0)
    (t1 t2 : List String) : convert htmlBody t1 = convert htmlBody t2 := by
  unfold convert html_to_markdown html_to_markdownL
  rw [subImgL_of_none _ (imgFind_eq_none_of_countImg_zero _ h),
      subImgL_of_none _ (imgFind_eq_none_of_countImg_zero _ h)]

/-- C8 counterexample: the body `&lt;img&gt;` contains zero `<img>` tags
(and zero matches of the image pattern), yet the final entity-decoding
step materialises the image markup `<img>` in the output — so the
claim's conjunct that the output contains no image markup is false. -/
theorem claim_C8_counterexample :
    countImg "&lt;img&gt;".data = 0 ∧ convert "&lt;img&gt;" [] = "<img>" :=
  ⟨by decide, by decide⟩

theorem claim_C8_witness :
    countImg "<p>hello</p>".data = 0 ∧
      convert "<p>hello</p>" ["A"] = convert "<p>hello</p>" ["B"] :=
  ⟨by decide, claim_C8_tags_independent "<p>hello</p>" (by decide) ["A"] ["B"]⟩

theorem subImgF_padded : ∀ (f : Nat) (s : List Char) (tags : List (List Char)),
    s.length < f → countImgF f s = tags.length → paddedSeq tags (subImgF f s tags) := by
  intro f
  induction f with
  | zero => intro s tags h hc; exact absurd h (by omega)
  | succ f ih =>
    intro s tags hlen hc
    unfold countImgF at hc
    unfold subImgF
    split at hc
    · rename_i hf
      cases tags with
      | nil => trivial
      | cons tg tgs => simp at hc
    · rename_i pre m rest hf
      cases tags with
      | nil => simp at hc
      | cons tg tgs =>
        obtain ⟨heq, hne⟩ := imgFind_spec s pre m rest hf
        have hm1 : 1 ≤ m.length := by
          cases m with
          | nil => exact absurd rfl hne
          | cons _ _ => simp
        have hslen : s.length = pre.length + m.length + rest.length := by
          rw [heq]; simp only [List.length_append]
        simp only [List.length_cons] at hc
        have hr1 : rest.length < f := by omega
        have hr2 : countImgF f rest = tgs.length := by omega
        refine ⟨pre, subImgF f rest tgs, ?_, ih rest tgs hr1 hr2⟩
        show pre ++ ('\n' :: '\n' :: tg ++ "\n\n".data) ++ subImgF f rest tgs
          = pre ++ '\n' :: '\n' :: (tg ++ '\n' :: '\n' :: subImgF f rest tgs)
        simp [List.append_assoc]

/-- C2 (amended): when the input has exactly as many matches of the
image pattern as there are supplied tags, the image-substitution step
(the first pass of `convert`) produces the supplied tag strings in the
same left-to-right order as the matched `<img>` occurrences, each
surrounded by blank lines.  (The later passes and the final trim can
remove those blank lines, as the counterexample shows for an image at
the document edge, so this does not survive to the final output in
general.) -/
theorem claim_C2_img_substitution (s : List Char) (tags : List (List Char))
    (h : countImg s = tags.length) : paddedSeq tags (subImgL s tags) :=
  subImgF_padded (s.length + 1) s tags (Nat.lt_succ_self _) h

/-- C2 counterexample: one image, one tag, but the output of `convert`
is exactly the bare tag — it contains no newline at all, so the tag is
not surrounded by blank lines in the final output. -/
theorem claim_C2_counterexample :
    countImg "<img src=\"u\">".data = 1 ∧
      convert "<img src=\"u\">" ["<img src=\"/images/a.png\" alt=\"\" />"]
        = "<img src=\"/images/a.png\" alt=\"\" />" ∧
      containsL "\n".data
        (convert "<img src=\"u\">" ["<img src=\"/images/a.png\" alt=\"\" />"]).data
        = false :=
  ⟨by decide, by decide, by decide⟩

theorem claim_C2_witness :
    countImg "x<img src=\"u\">y".data = 1 ∧
      paddedSeq ["TAG".data] (subImgL "x<img src=\"u\">y".data ["TAG".data]) :=
  ⟨by decide, claim_C2_img_substitution _ _ (by decide)⟩

theorem scanFindF_exists (mA : List Char → Option (List Char × List Char)) :
    ∀ (f : Nat) (s pre m rest : List Char), scanFindF f mA s = some (pre, m, rest) →
      ∃ u, mA u = some (m, rest) := by
  intro f
  induction f with
  | zero => intro s pre m rest h; simp [scanFindF] at h
  | succ f ih =>
    intro s pre m rest h
    unfold scanFindF at h
    split at h
    · rename_i m0 r0 hma
      simp only [Option.some.injEq, Prod.mk.injEq] at h
      obtain ⟨-, hm, hrest⟩ := h
      subst hm; subst hrest
      exact ⟨_, hma⟩
    · exact absurd h (by simp)
    · rename_i c cs hma
      simp only [Option.map_eq_some'] at h
      obtain ⟨⟨pre0, m0, r0⟩, hsf, hx⟩ := h
      simp only [Prod.mk.injEq] at hx
      obtain ⟨-, hm, hrest⟩ := hx
      subst hm; subst hrest
      exact ih cs _ _ _ hsf

/-- C9: an attribute-less `<img>` is never substituted.  Every match of
the image-substitution pattern `<img[^>]+>` is at least six characters
long (so it is never the five-character string `<img>`); `convert`
applied to the bare tag `<img>` returns it unchanged for every
`imageTags` list, consuming no entry; and the image-URL extractor
`extract_images` finds nothing in it. -/
theorem claim_C9_bare_img :
    (∀ (s pre m rest : List Char), imgFind s = some (pre, m, rest) → 6 ≤ m.length) ∧
      (∀ tags : List String, convert "<img>" tags = "<img>") ∧
      extract_images "<img>" = [] := by
  refine ⟨?_, ?_, by decide⟩
  · intro s pre m rest h
    obtain ⟨u, hu⟩ := scanFindF_exists imgMA (s.length + 1) s pre m rest h
    exact imgMA_min_length u m rest hu
  · intro tags
    have h1 : imgFind "<img>".data = none := by decide
    unfold convert html_to_markdown html_to_markdownL
    rw [subImgL_of_none _ h1 (tags.map String.data)]
    decide

theorem claim_C9_witness :
    imgFind "<img x>".data = some ([], "<img x>".data, []) ∧
      6 ≤ ("<img x>".data).length ∧ convert "<img>" ["T"] = "<img>" :=
  ⟨by decide, claim_C9_bare_img.1 "<img x>".data [] "<img x>".data [] (by decide),
    claim_C9_bare_img.2.1 ["T"]⟩

theorem dedupF_subset : ∀ (f : Nat) (l : List (List Char)) (x : List Char),
    x ∈ dedupF f l → x ∈ l := by
  intro f
  induction f with
  | zero => intro l x h; simp [dedupF] at h
  | succ f ih =>
    intro l x h
    cases l with
    | nil => simp [dedupF] at h
    | cons y ys =>
      simp only [dedupF, List.mem_cons] at h
      cases h with
      | inl h => simp [h]
      | inr h =>
        have hmem := ih _ x h
        simp only [List.mem_cons]
        exact Or.inr (List.mem_filter.mp hmem).1

theorem dedupL_subset (l : List (List Char)) (x : List Char) (h : x ∈ dedupL l) : x ∈ l :=
  dedupF_subset _ l x h

theorem foldl_preserve_skip (step : List Char → List Char → List Char)
    (hstep : ∀ acc tg, isAllowed tg = true → step acc tg = acc) :
    ∀ (L : List (List Char)) (acc : List Char),
      (∀ tg ∈ L, isAllowed tg = true) → L.foldl step acc = acc := by
  intro L
  induction L with
  | nil => intro acc _; rfl
  | cons x xs ih =>
    intro acc h
    simp only [List.foldl_cons]
    rw [hstep acc x (h x (by simp))]
    exact ih acc (fun tg ht => h tg (by simp [ht]))

theorem tagMA_spec : ∀ (t m rest : List Char), tagMA t = some (m, rest) →
    t = m ++ rest ∧ m ≠ [] := by
  intro t m rest h
  unfold tagMA at h
  split at h
  · rename_i r
    split at h
    · rename_i rest' hd
      split at h
      · exact absurd h (by simp)
      · simp only [Option.some.injEq, Prod.mk.injEq] at h
        obtain ⟨hm, hrest⟩ := h
        subst hm; subst hrest
        have h3 : r = r.takeWhile (· ≠ '>') ++ ('>' :: rest') := spanEq _ r _ hd
        constructor
        · conv_lhs => rw [h3]
          simp [List.append_assoc]
        · simp
    · exact absurd h (by simp)
  · exact absurd h (by simp)

theorem findAllValF_occurs : ∀ (f : Nat) (s tg : List Char),
    tg ∈ findAllValF f tagMA s → tg ≠ [] ∧ ∃ a b, s = a ++ tg ++ b := by
  intro f
  induction f with
  | zero => intro s tg h; simp [findAllValF] at h
  | succ f ih =>
    intro s tg h
    unfold findAllValF at h
    split at h
    · simp at h
    · rename_i pre v rest hsf
      unfold scanFind at hsf
      obtain ⟨heq, hne⟩ := scanFindF_spec tagMA tagMA_spec _ s pre v rest hsf
      simp only [List.mem_cons] at h
      rcases h with rfl | h
      · exact ⟨hne, pre, rest, heq⟩
      · obtain ⟨hn, a, b, hab⟩ := ih rest tg h
        refine ⟨hn, pre ++ v ++ a, b, ?_⟩
        rw [heq, hab]
        simp [List.append_assoc]

theorem findAllVal_occurs (s tg : List Char) (h : tg ∈ findAllVal tagMA s) :
    tg ≠ [] ∧ ∃ a b, s = a ++ tg ++ b :=
  findAllValF_occurs (s.length + 1) s tg h

theorem replaceAllF_occurs (old new : List Char) :
    ∀ (f : Nat) (a b : List Char), a.length < f →
      ∃ u v, replaceAllF f old new (a ++ old ++ b) = u ++ new ++ v := by
  intro f
  induction f with
  | zero => intro a b h; exact absurd h (by omega)
  | succ f ih =>
    intro a b hlen
    unfold replaceAllF
    split
    · rename_i r hr
      exact ⟨[], replaceAllF f old new r, rfl⟩
    · rename_i hr
      cases a with
      | nil =>
        simp only [List.nil_append] at hr
        rw [afterLit_append] at hr
        exact absurd hr (by simp)
      | cons c a0 =>
        simp only [List.cons_append]
        obtain ⟨u, v, hu⟩ := ih a0 b (by simp at hlen; omega)
        refine ⟨c :: u, v, ?_⟩
        show c :: replaceAllF f old new (a0 ++ old ++ b) = (c :: u) ++ new ++ v
        rw [hu]
        simp

theorem replaceAll_occurs (old new s : List Char) (hne : old ≠ [])
    (h : ∃ a b, s = a ++ old ++ b) :
    ∃ u v, replaceAllL old new s = u ++ new ++ v := by
  obtain ⟨a, b, rfl⟩ := h
  unfold replaceAllL
  apply replaceAllF_occurs old new
  have h1 : 1 ≤ old.length := by
    cases old with
    | nil => exact absurd rfl hne
    | cons _ _ => simp
  simp only [List.length_append]
  omega

theorem mem_dedupF : ∀ (f : Nat) (l : List (List Char)) (x : List Char),
    l.length ≤ f → x ∈ l → x ∈ dedupF f l := by
  intro f
  induction f with
  | zero =>
    intro l x hl hx
    cases l with
    | nil => simp at hx
    | cons y ys => simp at hl
  | succ f ih =>
    intro l x hl hx
    cases l with
    | nil => simp at hx
    | cons y ys =>
      simp only [dedupF, List.mem_cons]
      by_cases hxy : x = y
      · exact Or.inl hxy
      · right
        apply ih
        · have h1 : (ys.filter (fun y0 => y0 ≠ y)).length ≤ ys.length :=
            List.length_filter_le _ _
          simp only [List.length_cons] at hl
          omega
        · rw [List.mem_filter]
          refine ⟨?_, by simp [hxy]⟩
          rcases List.mem_cons.mp hx with h | h
          · exact absurd h hxy
          · exact h

theorem mem_dedupL (l : List (List Char)) (x : List Char) (h : x ∈ l) : x ∈ dedupL l :=
  mem_dedupF l.length l x le_rfl h

theorem dedupF_nodup : ∀ (f : Nat) (l : List (List Char)), (dedupF f l).Nodup := by
  intro f
  induction f with
  | zero => intro l; simp [dedupF]
  | succ f ih =>
    intro l
    cases l with
    | nil => simp [dedupF]
    | cons y ys =>
      simp only [dedupF]
      rw [List.nodup_cons]
      refine ⟨?_, ih _⟩
      intro hmem
      have h1 := dedupF_subset f _ y hmem
      rw [List.mem_filter] at h1
      simp at h1

theorem dedupL_nodup (l : List (List Char)) : (dedupL l).Nodup :=
  dedupF_nodup l.length l

theorem foldl_single_marker (tg : List Char) (hdis : isAllowed tg = false) :
    ∀ L : List (List Char), L.Nodup → tg ∈ L →
      (∀ x ∈ L, x = tg ∨ isAllowed x = true) →
      ∀ acc : List Char,
        L.foldl (fun acc tg0 =>
          if isAllowed tg0 then acc else replaceAllL tg0 (markerOf tg0) acc) acc
          = replaceAllL tg (markerOf tg) acc := by
  intro L
  induction L with
  | nil => intro _ hmem; simp at hmem
  | cons x xs ih =>
    intro hnd hmem hall acc
    rw [List.nodup_cons] at hnd
    obtain ⟨hnx, hndxs⟩ := hnd
    by_cases hx : x = tg
    · subst hx
      simp only [List.foldl_cons]
      rw [if_neg (by simp [hdis])]
      apply foldl_preserve_skip
      · intro acc0 tg0 h
        rw [if_pos h]
      · intro tg0 ht
        rcases hall tg0 (by simp [ht]) with rfl | h
        · exact absurd ht hnx
        · exact h
    · simp only [List.foldl_cons]
      have hxa : isAllowed x = true := by
        rcases hall x (by simp) with h | h
        · exact absurd h hx
        · exact h
      rw [if_pos hxa]
      refine ih hndxs ?_ ?_ acc
      · rcases List.mem_cons.mp hmem with h | h
        · exact absurd h.symm hx
        · exact h
      · intro x0 hx0
        exact hall x0 (by simp [hx0])

/-- C1 (amended): the residual-tag pass leaves unchanged any string
whose angle-bracket tags are all on the allow-list — `<p>`, `</p>`,
`<br>`, `<br/>`, `<ul>`, `</ul>`, `<ol>`, `</ol>`, `<li>`, `</li>` and
anything beginning `<img` — so unmatched allow-listed tags such as a
lone `<p>` survive raw in `convert`'s output.  When exactly one
distinct residual tag is off the allow-list, the pass is exactly a
global `str.replace` of that tag by the visible marker
`<!-- HTML preserved: tag -->` naming the literal tag text, and that
marker occurs in the pass's output; on `<video>clip</video>` the
markers reach `convert`'s final output.  (The wrapping is a property of
the preservation pass, not an invariant of the final output: entity
decoding runs after it — see the counterexample.) -/
theorem claim_C1_residual_tags :
    (∀ s : List Char, (∀ tg ∈ findAllVal tagMA s, isAllowed tg = true) →
        preserveTags s = s) ∧
      (∀ s tg : List Char, tg ∈ findAllVal tagMA s → isAllowed tg = false →
        (∀ tg0 ∈ findAllVal tagMA s, tg0 = tg ∨ isAllowed tg0 = true) →
        preserveTags s = replaceAllL tg (markerOf tg) s ∧
          ∃ u v, preserveTags s = u ++ markerOf tg ++ v) ∧
      convert "<video>clip</video>" []
        = "<!-- HTML preserved: <video> -->clip<!-- HTML preserved: </video> -->" := by
  refine ⟨?_, ?_, by decide⟩
  · intro s hall
    unfold preserveTags
    refine foldl_preserve_skip _ ?_ _ s ?_
    · intro acc tg htg
      rw [if_pos htg]
    · intro tg htg
      exact hall tg (dedupL_subset _ tg htg)
  · intro s tg hmem hdis hall
    have heq : preserveTags s = replaceAllL tg (markerOf tg) s := by
      unfold preserveTags
      refine foldl_single_marker tg hdis _ (dedupL_nodup _) (mem_dedupL _ tg hmem) ?_ s
      intro x hx
      exact hall x (dedupL_subset _ x hx)
    refine ⟨heq, ?_⟩
    rw [heq]
    obtain ⟨hne, hocc⟩ := findAllVal_occurs s tg hmem
    exact replaceAll_occurs tg (markerOf tg) s hne hocc

/-- C1 counterexample: the unmatched tag `<p>` is on the residual
allow-list, so `convert` returns it as raw markup; and the
entity-encoded `&lt;video&gt;` is decoded only after the preservation
pass, so `convert` outputs the raw non-allow-listed tag `<video>` with
no `<!-- HTML preserved: ... -->` marker anywhere — both contradicting
the claimed invariant. -/
theorem claim_C1_counterexample :
    (convert "<p>" [] = "<p>" ∧
      containsL "<p>".data (convert "<p>" []).data = true) ∧
      (convert "&lt;video&gt;" [] = "<video>" ∧
        isAllowed "<video>".data = false ∧
        containsL "<!--".data (convert "&lt;video&gt;" []).data = false) :=
  ⟨⟨by decide, by decide⟩, ⟨by decide, by decide, by decide⟩⟩

theorem claim_C1_witness :
    ((∀ tg ∈ findAllVal tagMA "<p>x</p>".data, isAllowed tg = true) ∧
      preserveTags "<p>x</p>".data = "<p>x</p>".data) ∧
      (preserveTags "a<video>b<p>c".data
          = replaceAllL "<video>".data (markerOf "<video>".data) "a<video>b<p>c".data ∧
        ∃ u v, preserveTags "a<video>b<p>c".data
          = u ++ markerOf "<video>".data ++ v) :=
  ⟨⟨by decide, claim_C1_residual_tags.1 "<p>x</p>".data (by decide)⟩,
    claim_C1_residual_tags.2.1 "a<video>b<p>c".data "<video>".data
      (by decide) (by decide) (by decide)⟩

/-- C4: evaluating the converter on the specification's nested-list
example.  The code emits the single line `- A- B`: the outer list item's
text and the nested bullet are glued together on one line, with no
nested indented bullet — the two-bullet-line output the claim describes
is not produced (the lazy `(.*?)` in the `<li>` pattern cuts the outer
item's content at the first `</li>`, so the recursive call never sees a
complete nested item). -/
theorem claim_C4_nested_list_bug :
    convert "<ul><li>A<ul><li>B</li></ul></li></ul>" [] = "- A- B" ∧
      containsL "\n".data
        (convert "<ul><li>A<ul><li>B</li></ul></li></ul>" []).data = false :=
  ⟨by decide, by decide⟩

/-- C7: the table converter of `convert_onboarding_docs.py` on the
specification's two-row example emits exactly the pipe-delimited header
line, the `---` separator with the header's column count, and the data
line, in that order (the block is wrapped in the blank lines that make
it its own paragraph). -/
theorem claim_C7_table_example :
    convert_table
        "<table><tr><th>Name</th><th>Age</th></tr><tr><td>Ann</td><td>30</td></tr></table>"
      = "\n\n| Name | Age |\n| --- | --- |\n| Ann | 30 |\n\n" := by decide

/-- C10: whenever the table converter extracts at least one row with
cells, the first extracted row becomes the header line, the separator
line has exactly as many `---` cells as that first row, and the later
rows are emitted with their own cell counts — independent of whether any
row contained a `<th>` cell. -/
theorem claim_C10_table_header (tbl : List Char) (r0 : List (List Char))
    (rest : List (List (List Char))) (h : extractRows tbl = r0 :: rest) :
    convert_tableL tbl =
      "\n\n".data ++ intercal ['\n']
        (rowLine r0 :: rowLine (List.replicate r0.length "---".data) :: rest.map rowLine) ++
      "\n\n".data := by
  unfold convert_tableL
  rw [h]
  rw [if_neg (by simp)]
  rfl

theorem claim_C10_witness :
    extractRows
        "<table><tr><td>A</td><td>B</td><td>C</td></tr><tr><td>x</td></tr></table>".data
      = ["A".data, "B".data, "C".data] :: [["x".data]] ∧
      convert_tableL
          "<table><tr><td>A</td><td>B</td><td>C</td></tr><tr><td>x</td></tr></table>".data
        = "\n\n| A | B | C |\n| --- | --- | --- |\n| x |\n\n".data :=
  ⟨by decide,
    (claim_C10_table_header
        "<table><tr><td>A</td><td>B</td><td>C</td></tr><tr><td>x</td></tr></table>".data
        ["A".data, "B".data, "C".data] [["x".data]] (by decide)).trans (by decide)⟩

theorem char_toNat_lt (c : Char) : c.toNat < 1114112 := by
  rcases c.valid with h | ⟨h1, h2⟩
  · exact lt_trans h (by norm_num)
  · exact h2

theorem charOfNat_toNat (n : Nat) (h : n < 55296) : (Char.ofNat n).toNat = n := by
  have hv : Nat.isValidChar n := Or.inl h
  simp [Char.ofNat, hv]
  rfl

theorem pd_cons_ne (c : Char) (hc : c ≠ '%') (r : List Char) :
    percentDecodeBytes (c :: r) = utf8Char c ++ percentDecodeBytes r := by
  rw [percentDecodeBytes]
  · intro a b r2 h1 h2
    exact hc h1
  · exact hc

theorem pd_percent_hex (a b : Char) (ha : isHexD a = true) (hb : isHexD b = true)
    (r2 : List Char) :
    percentDecodeBytes ('%' :: a :: b :: r2)
      = (hexVal a * 16 + hexVal b) :: percentDecodeBytes r2 := by
  rw [percentDecodeBytes]
  rw [if_pos (by simp [ha, hb])]

theorem utf8Char_ascii (c : Char) (h : c.toNat < 128) : utf8Char c = [c.toNat] := by
  unfold utf8Char
  rw [if_pos (by omega)]

theorem utf8Char_lt_256 (c : Char) : ∀ b ∈ utf8Char c, b < 256 := by
  intro b hb
  have hc := char_toNat_lt c
  unfold utf8Char at hb
  split at hb
  · simp only [List.mem_singleton] at hb
    omega
  · split at hb
    · simp only [List.mem_cons, List.mem_singleton, List.not_mem_nil, or_false] at hb
      rcases hb with rfl | rfl <;> omega
    · split at hb
      · simp only [List.mem_cons, List.mem_singleton, List.not_mem_nil, or_false] at hb
        rcases hb with rfl | rfl | rfl <;> omega
      · simp only [List.mem_cons, List.mem_singleton, List.not_mem_nil, or_false] at hb
        rcases hb with rfl | rfl | rfl | rfl <;> omega

theorem utf8L_cons (c : Char) (s : List Char) : utf8L (c :: s) = utf8Char c ++ utf8L s := by
  simp [utf8L]

theorem utf8L_bound (seg : List Char) : ∀ b ∈ utf8L seg, b < 256 := by
  intro b hb
  unfold utf8L at hb
  rw [List.mem_flatten] at hb
  obtain ⟨l, hl, hm⟩ := hb
  rw [List.mem_map] at hl
  obtain ⟨c, -, rfl⟩ := hl
  exact utf8Char_lt_256 c b hm

theorem isHexD_hexDigit (n : Nat) (h : n < 16) : isHexD (hexDigitU n) = true := by
  interval_cases n <;> decide

theorem hexVal_hexDigit (n : Nat) (h : n < 16) : hexVal (hexDigitU n) = n := by
  interval_cases n <;> decide

theorem hexDigitU_ne_slash (n : Nat) (h : n < 16) : hexDigitU n ≠ '/' := by
  interval_cases n <;> decide

theorem unreservedB_props (b : Nat) (h : unreservedB b = true) :
    b < 128 ∧ b ≠ 37 ∧ b ≠ 47 := by
  unfold unreservedB at h
  simp only [Bool.or_eq_true, Bool.and_eq_true, decide_eq_true_eq] at h
  omega

theorem byteEnc_decode (b : Nat) (hb : b < 256) (rest : List Char) :
    percentDecodeBytes (byteEnc b ++ rest) = b :: percentDecodeBytes rest := by
  unfold byteEnc
  by_cases hu : unreservedB b = true
  · rw [if_pos hu]
    obtain ⟨h128, h37, -⟩ := unreservedB_props b hu
    have hvn : (Char.ofNat b).toNat = b := charOfNat_toNat b (by omega)
    have hcc : Char.ofNat b ≠ '%' := by
      intro he
      rw [he] at hvn
      have h2 : ('%').toNat = 37 := rfl
      omega
    show percentDecodeBytes (Char.ofNat b :: rest) = b :: percentDecodeBytes rest
    rw [pd_cons_ne _ hcc]
    rw [utf8Char_ascii _ (by omega)]
    rw [hvn]
    rfl
  · rw [if_neg hu]
    show percentDecodeBytes ('%' :: hexDigitU (b / 16) :: hexDigitU (b % 16) :: rest)
      = b :: percentDecodeBytes rest
    rw [pd_percent_hex _ _ (isHexD_hexDigit _ (by omega)) (isHexD_hexDigit _ (by omega))]
    rw [hexVal_hexDigit _ (by omega), hexVal_hexDigit _ (by omega)]
    congr 1
    omega

theorem pd_quote_bytes : ∀ bs : List Nat, (∀ b ∈ bs, b < 256) →
    percentDecodeBytes ((bs.map byteEnc).flatten) = bs := by
  intro bs
  induction bs with
  | nil => intro; rfl
  | cons b bs ih =>
    intro h
    simp only [List.map_cons, List.flatten_cons]
    rw [byteEnc_decode b (h b (by simp)) _]
    rw [ih (fun x hx => h x (by simp [hx]))]

theorem pd_quoteSeg (seg : List Char) : percentDecodeBytes (quoteSeg seg) = utf8L seg := by
  unfold quoteSeg
  exact pd_quote_bytes (utf8L seg) (utf8L_bound seg)

theorem byteEnc_no_slash (b : Nat) (hb : b < 256) : '/' ∉ byteEnc b := by
  unfold byteEnc
  by_cases hu : unreservedB b = true
  · rw [if_pos hu]
    obtain ⟨h128, -, h47⟩ := unreservedB_props b hu
    simp only [List.mem_singleton]
    intro he
    have hvn : (Char.ofNat b).toNat = b := charOfNat_toNat b (by omega)
    rw [← he] at hvn
    have h2 : ('/').toNat = 47 := rfl
    omega
  · rw [if_neg hu]
    intro h
    simp only [List.mem_cons, List.mem_singleton, List.not_mem_nil, or_false] at h
    rcases h with h | h | h
    · exact absurd h (by decide)
    · exact hexDigitU_ne_slash _ (by omega) h.symm
    · exact hexDigitU_ne_slash _ (by omega) h.symm

theorem quoteSeg_no_slash (seg : List Char) : '/' ∉ quoteSeg seg := by
  intro h
  unfold quoteSeg at h
  rw [List.mem_flatten] at h
  obtain ⟨l, hl, hm⟩ := h
  rw [List.mem_map] at hl
  obtain ⟨b, hb, rfl⟩ := hl
  exact byteEnc_no_slash b (utf8L_bound seg b hb) hm

theorem pd_no_percent : ∀ s : List Char, '%' ∉ s →
    percentDecodeBytes s = utf8L s := by
  intro s
  induction s with
  | nil => intro; rfl
  | cons c cs ih =>
    intro h
    rw [pd_cons_ne c (fun he => h (by simp [he])) cs]
    rw [ih (fun hm => h (by simp [hm])), utf8L_cons]

theorem pySplit_ne_nil : ∀ s : List Char, pySplit s ≠ [] := by
  intro s h
  cases s with
  | nil => simp [pySplit] at h
  | cons c cs =>
    unfold pySplit at h
    by_cases hc : c = '/'
    · rw [if_pos hc] at h
      simp at h
    · rw [if_neg hc] at h
      split at h <;> simp at h

theorem pySplit_no_slash : ∀ (s : List Char) (seg : List Char),
    seg ∈ pySplit s → '/' ∉ seg := by
  intro s
  induction s with
  | nil =>
    intro seg h
    simp only [pySplit, List.mem_singleton] at h
    subst h
    simp
  | cons c cs ih =>
    intro seg h
    unfold pySplit at h
    by_cases hc : c = '/'
    · rw [if_pos hc] at h
      simp only [List.mem_cons] at h
      rcases h with rfl | h
      · simp
      · exact ih seg h
    · rw [if_neg hc] at h
      split at h
      · rename_i seg0 rest hps
        simp only [List.mem_cons] at h
        rcases h with rfl | h
        · intro hmem
          simp only [List.mem_cons] at hmem
          rcases hmem with he | hmem
          · exact hc he.symm
          · exact ih seg0 (by rw [hps]; exact List.mem_cons_self _ _) hmem
        · exact ih seg (by rw [hps]; exact List.mem_cons_of_mem _ h)
      · rename_i hps
        simp only [List.mem_singleton] at h
        subst h
        intro hmem
        simp only [List.mem_cons, List.not_mem_nil, or_false] at hmem
        exact hc hmem.symm

theorem pySplit_single (x : List Char) (hx : '/' ∉ x) : pySplit x = [x] := by
  induction x with
  | nil => rfl
  | cons c cs ih =>
    unfold pySplit
    rw [if_neg (fun h => hx (by simp [h]))]
    rw [ih (fun h => hx (List.mem_cons_of_mem _ h))]

theorem pySplit_append (x t : List Char) (hx : '/' ∉ x) :
    pySplit (x ++ '/' :: t) = x :: pySplit t := by
  induction x with
  | nil => simp [pySplit]
  | cons c cs ih =>
    simp only [List.cons_append]
    conv_lhs => unfold pySplit
    rw [if_neg (fun h => hx (by simp [h]))]
    rw [ih (fun h => hx (List.mem_cons_of_mem _ h))]

theorem pySplit_joinSlash : ∀ l : List (List Char), l ≠ [] →
    (∀ seg ∈ l, '/' ∉ seg) → pySplit (joinSlash l) = l := by
  intro l
  induction l with
  | nil => intro h; exact absurd rfl h
  | cons x xs ih =>
    intro _ hall
    cases xs with
    | nil => exact pySplit_single x (hall x (by simp))
    | cons y ys =>
      show pySplit (x ++ '/' :: joinSlash (y :: ys)) = x :: y :: ys
      rw [pySplit_append x _ (hall x (by simp))]
      rw [ih (by simp) (fun seg hs => hall seg (by simp [hs]))]

/-- C6: the round trip holds on the paths `create_image_tag` is written
for — every `/`-segment after the first non-empty and no `%` in the
untouched first segment.  Splitting the encoded path on `/` and
percent-decoding each segment reproduces the original path's segments
(as their UTF-8 bytes), the separators stay literal (same segment
count), and the first segment is carried over unchanged.  Without those
side conditions the claim fails: empty interior segments are dropped by
the encoder. -/
theorem claim_C6_encodePath_roundtrip (p : String)
    (h1 : ∀ seg ∈ (pySplit p.data).tail, seg ≠ [])
    (h2 : '%' ∉ (pySplit p.data).headI) :
    (pySplit (encodePath p).data).map percentDecodeBytes
      = (pySplit p.data).map utf8L ∧
    (pySplit (encodePath p).data).length = (pySplit p.data).length ∧
    (pySplit (encodePath p).data).headI = (pySplit p.data).headI := by
  cases hps : pySplit p.data with
  | nil => exact absurd hps (pySplit_ne_nil _)
  | cons p0 rest =>
    have hp0 : '/' ∉ p0 :=
      pySplit_no_slash p.data p0 (by rw [hps]; exact List.mem_cons_self _ _)
    have hfilter : rest.filter (fun x => x ≠ []) = rest := by
      rw [List.filter_eq_self]
      intro a ha
      have h := h1 a (by rw [hps]; exact ha)
      simpa using h
    have hdata : (encodePath p).data = joinSlash (p0 :: rest.map quoteSeg) := by
      show joinSlash (encodeParts (pySplit p.data)) = _
      rw [hps]
      show joinSlash (p0 :: (rest.filter (fun x => x ≠ [])).map quoteSeg) = _
      rw [hfilter]
    have hsplit : pySplit (encodePath p).data = p0 :: rest.map quoteSeg := by
      rw [hdata]
      apply pySplit_joinSlash
      · simp
      · intro seg hs
        simp only [List.mem_cons] at hs
        rcases hs with rfl | hs
        · exact hp0
        · rw [List.mem_map] at hs
          obtain ⟨x, -, rfl⟩ := hs
          exact quoteSeg_no_slash x
    refine ⟨?_, ?_, ?_⟩
    · rw [hsplit]
      simp only [List.map_cons, List.map_map]
      congr 1
      · apply pd_no_percent
        rw [hps] at h2
        exact h2
      · apply List.map_congr_left
        intro a _
        exact pd_quoteSeg a
    · rw [hsplit]
      simp
    · rw [hsplit]
      rfl

theorem claim_C6_counterexample :
    encodePath "/a//b" = "/a/b" ∧
    (pySplit (encodePath "/a//b").data).map percentDecodeBytes
      ≠ (pySplit "/a//b".data).map utf8L :=
  ⟨by decide, by decide⟩

theorem claim_C6_witness :
    (∀ seg ∈ (pySplit "/a b".data).tail, seg ≠ []) ∧
    '%' ∉ (pySplit "/a b".data).headI ∧
    (pySplit (encodePath "/a b").data).map percentDecodeBytes
      = (pySplit "/a b".data).map utf8L :=
  ⟨by decide, by decide,
    (claim_C6_encodePath_roundtrip "/a b" (by decide) (by decide)).1⟩

end MDX
